import Mathlib

/-!
Verification of the strict-mode JSON Schema normalizer with reversible
enum-value encoding: the functions `sanitizeEnumValue`, `makeSchemaStrict`
and `restoreEnumValues` of the repository, embedded shallowly over a JSON
value tree.  JavaScript objects are modelled as ordered association lists
(insertion order preserved, keys unique in any value produced by `JSON.parse`),
JavaScript's optional mutable `Map` argument as explicitly threaded
`Option EMap` state, and the one genuine runtime error of the source (calling
`.map` on a truthy non-array `anyOf`/`allOf`/`oneOf` value) as `Option.none`.
-/

/-- A JSON value: the untyped tree both schema nodes and model-output values
live in.  Numbers are modelled as integers; no claim depends on numeric
content beyond identity and truthiness. -/
inductive JVal where
  | str (s : String)
  | num (n : Int)
  | bool (b : Bool)
  | null
  | arr (xs : List JVal)
  | obj (es : List (String × JVal))

/-- The enum mapping: sanitized string to original string, in insertion order,
modelling the JavaScript `Map<string, string>`. -/
abbrev EMap := List (String × String)

mutual

/-- Size of a JSON value, used only as a fuel bound for `makeSchemaStrict`. -/
def jsize : JVal → Nat
  | .str _ => 1 | .num _ => 1 | .bool _ => 1 | .null => 1
  | .arr xs => 1 + jsizeL xs
  | .obj es => 1 + jsizeE es

/-- Total size of a list of JSON values. -/
def jsizeL : List JVal → Nat
  | [] => 0
  | x :: xs => jsize x + jsizeL xs

/-- Total size of the values of an entry list. -/
def jsizeE : List (String × JVal) → Nat
  | [] => 0
  | (_, v) :: es => jsize v + jsizeE es

end

/-- `Map.set`: overwrite the value of an existing key in place, otherwise
append the new entry at the end (JavaScript `Map` insertion-order semantics). -/
def mapSet : EMap → String → String → EMap
  | [], k, v => [(k, v)]
  | (k', v') :: rest, k, v =>
    if k' == k then (k, v) :: rest else (k', v') :: mapSet rest k v

/-- JavaScript truthiness of a JSON value (`NaN` and `undefined` do not arise
for parsed JSON values reaching these functions). -/
def truthy : JVal → Bool
  | .null => false
  | .bool b => b
  | .num n => n != 0
  | .str s => s != ""
  | .arr _ => true
  | .obj _ => true

/-- Property read `o[k]` for truthiness tests: a missing key is `undefined`,
which is falsy exactly like `null`. -/
def getKey (es : List (String × JVal)) (k : String) : JVal :=
  (List.lookup k es).getD .null

/-- Whether the object has the key (`'k' in o`). -/
def containsKey (es : List (String × JVal)) (k : String) : Bool :=
  (List.lookup k es).isSome

/-- `delete o[k]`: remove the key. -/
def removeKey (es : List (String × JVal)) (k : String) : List (String × JVal) :=
  es.filter (fun e => e.1 != k)

/-- `o[k] = v`: overwrite an existing key in place, else append at the end. -/
def setKey (es : List (String × JVal)) (k : String) (v : JVal) :
    List (String × JVal) :=
  match es with
  | [] => [(k, v)]
  | (k', v') :: rest =>
    if k' == k then (k, v) :: rest else (k', v') :: setKey rest k v

/-- `schema.type === t` for a string literal `t`. -/
def typeIs (es : List (String × JVal)) (t : String) : Bool :=
  match List.lookup "type" es with
  | some (.str s) => s == t
  | _ => false

/-- The enumerable own properties of a JavaScript value, as ordered key/value
pairs: objects yield their entries, arrays their elements under stringified
indices, strings their characters under stringified indices (JavaScript wraps
string primitives, whose indices are own enumerable properties), and other
primitives yield nothing.  Used both for `{...schema}` on object/array inputs
and for `Object.keys(schema.properties)` plus the `schema.properties[key]`
reads that follow it. -/
def propPairs : JVal → List (String × JVal)
  | .obj es => es
  | .arr xs => xs.enum.map (fun p => (toString p.1, p.2))
  | .str s => s.data.enum.map (fun p => (toString p.1, JVal.str (String.singleton p.2)))
  | _ => []

/-- The `{...schema}` shallow copy of the schema node (only reached when
`typeof schema === 'object'`, i.e. for objects and arrays). -/
def spreadEntries : JVal → List (String × JVal) := propPairs

/-- The fixed list of keywords the strict dialect rejects, in source order. -/
def unsupportedKeys : List String :=
  ["$schema", "default", "format", "pattern", "minLength", "maxLength",
   "minimum", "maximum", "exclusiveMinimum", "exclusiveMaximum", "multipleOf",
   "minItems", "maxItems", "uniqueItems", "minProperties", "maxProperties",
   "patternProperties", "not", "if", "then", "else", "examples"]

/-- `for (const k of unsupported) delete newSchema[k]`. -/
def stripUnsupported (es : List (String × JVal)) : List (String × JVal) :=
  unsupportedKeys.foldl removeKey es

/-- The sanitization primitive: `value.replace(/[\n\r\t]/g, ' ')` followed by
`.replace(/[\u0000-\u001F]/g, ' ')`, character by character. -/
def sanitizeEnumValue (value : String) : String :=
  String.mk ((value.data.map
      (fun c => if c == '\n' || c == '\r' || c == '\t' then ' ' else c)).map
    (fun c => if c.toNat ≤ 0x1F then ' ' else c))

/-- The `newSchema.enum.map(...)` pass: sanitize string members in order,
recording `(sanitized -> original)` for each changed member when a mapping was
supplied; non-string members pass through. -/
def sanitizeEnumList : List JVal → Option EMap → List JVal × Option EMap
  | [], m => ([], m)
  | .str s :: vs, m =>
    let s' := sanitizeEnumValue s
    let m' := if s' != s then m.map (fun mm => mapSet mm s' s) else m
    let r := sanitizeEnumList vs m'
    (.str s' :: r.1, r.2)
  | v :: vs, m =>
    let r := sanitizeEnumList vs m
    (v :: r.1, r.2)

/-- Sequential strictification of a list of schema nodes (`anyOf`/`allOf`/
`oneOf` members), threading the mapping, abstracted over the recursive call. -/
def strictListC (go : JVal → Option EMap → Option (JVal × Option EMap)) :
    List JVal → Option EMap → Option (List JVal × Option EMap)
  | [], m => some ([], m)
  | x :: xs, m =>
    match go x m with
    | some (x', m') =>
      match strictListC go xs m' with
      | some (xs', m'') => some (x' :: xs', m'')
      | none => none
    | none => none

/-- Sequential strictification of the property map's entries in key order,
threading the mapping, abstracted over the recursive call. -/
def strictPropsC (go : JVal → Option EMap → Option (JVal × Option EMap)) :
    List (String × JVal) → Option EMap → Option (List (String × JVal) × Option EMap)
  | [], m => some ([], m)
  | (k, v) :: ps, m =>
    match go v m with
    | some (v', m') =>
      match strictPropsC go ps m' with
      | some (ps', m'') => some ((k, v') :: ps', m'')
      | none => none
    | none => none

/-- The `const` rewrite: `if ('const' in newSchema) { newSchema.enum =
[newSchema.const]; delete newSchema.const; }`. -/
def constPhase (n1 : List (String × JVal)) : List (String × JVal) :=
  if containsKey n1 "const" then
    removeKey (setKey n1 "enum" (.arr [(List.lookup "const" n1).getD .null])) "const"
  else n1

/-- The enum sanitization: `if (Array.isArray(newSchema.enum)) newSchema.enum =
newSchema.enum.map(...)`. -/
def enumPhase (n2 : List (String × JVal)) (m : Option EMap) :
    List (String × JVal) × Option EMap :=
  match List.lookup "enum" n2 with
  | some (.arr vs) =>
    let r := sanitizeEnumList vs m
    (setKey n2 "enum" (.arr r.1), r.2)
  | _ => (n2, m)

/-- The three node-local rewrites that precede the recursion at every object
node, in source order: delete the unsupported keywords, rewrite `const` into a
single-element `enum`, and sanitize the members of an `enum` array (recording
changed string members in the mapping). -/
def prepNode (es0 : List (String × JVal)) (m : Option EMap) :
    List (String × JVal) × Option EMap :=
  enumPhase (constPhase (stripUnsupported es0)) m

/-- The `anyOf`/`allOf`/`oneOf` recursion: `newSchema[k] = schema[k].map(go)`.
A truthy value of these keys that is not an array makes the JavaScript `.map`
call throw a `TypeError`, modelled by `none`. -/
def unionStep (go : JVal → Option EMap → Option (JVal × Option EMap))
    (es0 n3 : List (String × JVal)) (m1 : Option EMap) (k : String) :
    Option (JVal × Option EMap) :=
  match List.lookup k es0 with
  | some (.arr xs) =>
    match strictListC go xs m1 with
    | some (xs', m2) => some (.obj (setKey n3 k (.arr xs')), m2)
    | none => none
  | _ => none

/-- The mutually exclusive object / array / union recursion chain of
`makeSchemaStrict`, selected on the original node `es0` and applied on top of
the locally rewritten node `n3` with mapping state `m1`. -/
def branchStep (go : JVal → Option EMap → Option (JVal × Option EMap))
    (es0 n3 : List (String × JVal)) (m1 : Option EMap) :
    Option (JVal × Option EMap) :=
  if typeIs es0 "object" || truthy (getKey es0 "properties") then
    match List.lookup "properties" es0 with
    | some props =>
      if truthy props then
        match strictPropsC go (propPairs props) m1 with
        | some (newProps, m2) =>
          some (.obj (setKey
            (setKey (setKey n3 "additionalProperties" (.bool false)) "required"
              (.arr ((propPairs props).map (fun p => JVal.str p.1))))
            "properties" (.obj newProps)), m2)
        | none => none
      else some (.obj (setKey n3 "additionalProperties" (.bool false)), m1)
    | none => some (.obj (setKey n3 "additionalProperties" (.bool false)), m1)
  else if typeIs es0 "array" || truthy (getKey es0 "items") then
    match List.lookup "items" es0 with
    | some items =>
      if truthy items then
        match go items m1 with
        | some (items', m2) => some (.obj (setKey n3 "items" items'), m2)
        | none => none
      else some (.obj n3, m1)
    | none => some (.obj n3, m1)
  else if truthy (getKey es0 "anyOf") then
    unionStep go es0 n3 m1 "anyOf"
  else if truthy (getKey es0 "allOf") then
    unionStep go es0 n3 m1 "allOf"
  else if truthy (getKey es0 "oneOf") then
    unionStep go es0 n3 m1 "oneOf"
  else some (.obj n3, m1)

/-- One fuel-indexed step of `makeSchemaStrict`.  Fuel only bounds the
recursion depth so that the definition is structural; `makeSchemaStrict`
below supplies more fuel than any input's tree depth.  `none` models a thrown
`TypeError` (`.map` called on a truthy non-array union value). -/
def strictGo : Nat → JVal → Option EMap → Option (JVal × Option EMap)
  | 0, _, _ => none
  | fuel + 1, schema, m =>
    match schema with
    | .str _ | .num _ | .bool _ | .null => some (schema, m)
    | .arr _ | .obj _ =>
      branchStep (fun v mm => strictGo fuel v mm) (spreadEntries schema)
        (prepNode (spreadEntries schema) m).1 (prepNode (spreadEntries schema) m).2

/-- `makeSchemaStrict(schema, enumMapping?)`: runs the recursion with fuel
strictly exceeding the input's recursion depth (every recursive call descends
into a value of strictly smaller `jsize`, so `jsize schema + 1` levels always
suffice). -/
def makeSchemaStrict (schema : JVal) (m : Option EMap) :
    Option (JVal × Option EMap) :=
  strictGo (jsize schema + 1) schema m

mutual

/-- `restoreEnumValues(output, enumMapping)`: strings are looked up in the
mapping (`enumMapping.get(output) ?? output`), arrays and objects are rebuilt
recursively, all other values pass through. -/
def restoreEnumValues : JVal → EMap → JVal
  | .str s, mm => .str ((List.lookup s mm).getD s)
  | .arr xs, mm => .arr (restoreList xs mm)
  | .obj es, mm => .obj (restoreEntries es mm)
  | v, _ => v

/-- `output.map((item) => restoreEnumValues(item, enumMapping))`. -/
def restoreList : List JVal → EMap → List JVal
  | [], _ => []
  | x :: xs, mm => restoreEnumValues x mm :: restoreList xs mm

/-- The `Object.entries` loop: keys kept, values restored. -/
def restoreEntries : List (String × JVal) → EMap → List (String × JVal)
  | [], _ => []
  | (k, v) :: es, mm => (k, restoreEnumValues v mm) :: restoreEntries es mm

end

/-- The effect of one enum-member pass: strings are sanitized, every other
value passes through. -/
def sanitizeJ : JVal → JVal
  | .str s => .str (sanitizeEnumValue s)
  | v => v

/-- Scalar JSON values (string, number, boolean, null). -/
def isScalar : JVal → Bool
  | .str _ => true
  | .num _ => true
  | .bool _ => true
  | .null => true
  | _ => false

/-- A scalar, or an array of scalars (e.g. a `required` list or an `enum` of
plain values). -/
def scalarish : JVal → Bool
  | .arr xs => xs.all isScalar
  | v => isScalar v

/-- Keys of an entry list are pairwise distinct (always true of a parsed
JavaScript object). -/
def nodupKeysJ : List (String × JVal) → Bool
  | [] => true
  | (k, _) :: es => !(containsKey es k) && nodupKeysJ es

/-- The node matches at most one of the strictifier's mutually exclusive
branch shapes, so that every structural child is actually visited: an
object-shaped node carries no `items`/`anyOf`/`allOf`/`oneOf`, an array-shaped
node no union keys, `anyOf` excludes `allOf`/`oneOf`, and `allOf` excludes
`oneOf`. -/
def exclusiveShape (es : List (String × JVal)) : Bool :=
  if typeIs es "object" || containsKey es "properties" then
    !(containsKey es "items" || containsKey es "anyOf" || containsKey es "allOf"
      || containsKey es "oneOf")
  else if typeIs es "array" || containsKey es "items" then
    !(containsKey es "anyOf" || containsKey es "allOf" || containsKey es "oneOf")
  else if containsKey es "anyOf" then
    !(containsKey es "allOf" || containsKey es "oneOf")
  else if containsKey es "allOf" then
    !(containsKey es "oneOf")
  else true

mutual

/-- Well-shaped schema trees: schema nodes are objects (or scalars) whose
keys are unique, whose branch shapes are mutually exclusive, and whose nested
schemas occur only in the positions the strictifier recurses into
(`properties` values, `items`, union members); every other keyword value is a
scalar or an array of scalars. -/
def wfSchema : JVal → Bool
  | .obj es => nodupKeysJ es && exclusiveShape es && wfEntries es
  | .arr _ => false
  | _ => true

/-- Shape constraint on one keyword's value in a well-shaped schema node. -/
def wfEntryVal (k : String) (v : JVal) : Bool :=
  if k == "properties" then wfProps v
  else if k == "items" then wfSchema v
  else if k == "anyOf" || k == "allOf" || k == "oneOf" then wfUnion v
  else if k == "enum" then scalarish v && !(isScalar v)
  else if k == "const" then isScalar v
  else scalarish v

/-- Per-entry shape constraints of a well-shaped schema node. -/
def wfEntries : List (String × JVal) → Bool
  | [] => true
  | (k, v) :: es => wfEntryVal k v && wfEntries es

/-- A well-shaped `properties` value: an object with unique keys whose values
are well-shaped schemas. -/
def wfProps : JVal → Bool
  | .obj ps => nodupKeysJ ps && wfPropList ps
  | _ => false

/-- All property schemas are well-shaped. -/
def wfPropList : List (String × JVal) → Bool
  | [] => true
  | (_, v) :: ps => wfSchema v && wfPropList ps

/-- A well-shaped union value: an array of well-shaped schemas. -/
def wfUnion : JVal → Bool
  | .arr xs => wfList xs
  | _ => false

/-- All members of a list are well-shaped schemas. -/
def wfList : List JVal → Bool
  | [] => true
  | x :: xs => wfSchema x && wfList xs

end

mutual

/-- No unsupported keyword occurs as a key of any schema node, at any depth
(the keys of the `properties` map are property names, not schema keywords,
and are exempt; its values are schema nodes and are checked). -/
def cleanDeep : JVal → Bool
  | .obj es => cleanEntries es
  | .arr xs => cleanList xs
  | _ => true

/-- Check of one entry for `cleanDeep`. -/
def cleanEntryVal (k : String) (v : JVal) : Bool :=
  !(unsupportedKeys.contains k)
  && (if k == "properties" then cleanProps v else cleanDeep v)

/-- Entry check for `cleanDeep`. -/
def cleanEntries : List (String × JVal) → Bool
  | [] => true
  | (k, v) :: es => cleanEntryVal k v && cleanEntries es

/-- A `properties` value: keys are property names (exempt), values are schema
nodes. -/
def cleanProps : JVal → Bool
  | .obj ps => cleanPropList ps
  | v => cleanDeep v

/-- All property schemas are clean. -/
def cleanPropList : List (String × JVal) → Bool
  | [] => true
  | (_, v) :: ps => cleanDeep v && cleanPropList ps

/-- All members of a list are clean. -/
def cleanList : List JVal → Bool
  | [] => true
  | x :: xs => cleanDeep x && cleanList xs

end

/-- Read a list of strings from a JSON array's members. -/
def asStrings : List JVal → Option (List String)
  | [] => some []
  | .str s :: xs => (asStrings xs).map (fun r => s :: r)
  | _ => none

/-- When the node has a `properties` map, its `required` is exactly the
ordered list of that map's keys. -/
def requiredMatches (es : List (String × JVal)) : Bool :=
  match List.lookup "properties" es with
  | some (.obj ps) =>
    match List.lookup "required" es with
    | some (.arr rs) => asStrings rs == some (ps.map Prod.fst)
    | _ => false
  | _ => true

/-- The closure condition of one node: if it is object-shaped (`type` is
`"object"` or it has a `properties` key), then `additionalProperties` is
literally `false` and `required` matches the `properties` keys. -/
def nodeClosed (es : List (String × JVal)) : Bool :=
  if typeIs es "object" || containsKey es "properties" then
    (match List.lookup "additionalProperties" es with
     | some (.bool false) => true
     | _ => false)
    && requiredMatches es
  else true

mutual

/-- Every object-shaped schema node in the tree satisfies `nodeClosed`
(the `properties` map itself is a map of schemas, not a schema node, so the
condition applies to its values, not to the map). -/
def closedDeep : JVal → Bool
  | .obj es => nodeClosed es && closedEntries es
  | .arr xs => closedList xs
  | _ => true

/-- Check of one entry for `closedDeep`. -/
def closedEntryVal (k : String) (v : JVal) : Bool :=
  if k == "properties" then closedProps v else closedDeep v

/-- Entry check for `closedDeep`. -/
def closedEntries : List (String × JVal) → Bool
  | [] => true
  | (k, v) :: es => closedEntryVal k v && closedEntries es

/-- A `properties` value: its values are the schema nodes to check. -/
def closedProps : JVal → Bool
  | .obj ps => closedPropList ps
  | v => closedDeep v

/-- All property schemas are closed. -/
def closedPropList : List (String × JVal) → Bool
  | [] => true
  | (_, v) :: ps => closedDeep v && closedPropList ps

/-- All members of a list are closed. -/
def closedList : List JVal → Bool
  | [] => true
  | x :: xs => closedDeep x && closedList xs

end

/-- A mapping entry as produced by sanitization: the key is the sanitized
form of the original value, and sanitization actually changed it. -/
def GoodEntry (e : String × String) : Prop :=
  e.1 = sanitizeEnumValue e.2 ∧ e.1 ≠ e.2

/-- The mapping's keys are pairwise distinct (a JavaScript `Map` invariant). -/
def keysNodup (mm : EMap) : Prop :=
  (mm.map Prod.fst).Nodup

/-- How the threaded mapping state may change across a strictifier call:
absent stays absent, and a present mapping only gains entries that
sanitization justifies (every entry of the result was already present or is a
`GoodEntry`), preserving key uniqueness. -/
def MapEvolve : Option EMap → Option EMap → Prop
  | none, none => True
  | some mm, some mm' =>
    (keysNodup mm → keysNodup mm') ∧ ∀ e ∈ mm', e ∈ mm ∨ GoodEntry e
  | _, _ => False

/-- The keys that `makeSchemaStrict` reacts to in any way: the unsupported
set, the `const`/`enum` rewrites, and the branch-selection keys. -/
def recognizedKeys : List String :=
  unsupportedKeys ++
    ["const", "enum", "type", "properties", "items", "anyOf", "allOf", "oneOf"]

/-- Key lookup on an object value (`none` on any other shape), used to state
per-node properties of the strictifier's output. -/
def jlookup (v : JVal) (k : String) : Option JVal :=
  match v with
  | .obj es => List.lookup k es
  | _ => none

mutual

/-- The no-throw condition on an input value: a tree of objects and scalars
in which, at every node the recursion can enter, each `anyOf`/`allOf`/`oneOf`
value is falsy or an array (a truthy non-array value there is exactly what
makes the JavaScript `.map` call throw).  Values of keywords the recursion
never enters are unconstrained. -/
def unionsOk : JVal → Bool
  | .obj es => unionsOkEntries es
  | .arr _ => false
  | _ => true

/-- Entry check for `unionsOk`. -/
def unionsOkEntries : List (String × JVal) → Bool
  | [] => true
  | (k, v) :: es => unionsOkEntry k v && unionsOkEntries es

/-- The no-throw condition on one keyword's value: `properties` values,
`items` and union members are where the recursion can go; everything else is
never entered. -/
def unionsOkEntry (k : String) (v : JVal) : Bool :=
  if k == "properties" then unionsOkProps v
  else if k == "items" then unionsOk v
  else if k == "anyOf" || k == "allOf" || k == "oneOf" then unionsOkUnion v
  else true

/-- A `properties` value whose own enumerable values (object entries or array
members; string characters and primitives are scalar) satisfy the no-throw
condition. -/
def unionsOkProps : JVal → Bool
  | .obj ps => unionsOkPropList ps
  | .arr xs => unionsOkList xs
  | _ => true

/-- All property schemas satisfy the no-throw condition. -/
def unionsOkPropList : List (String × JVal) → Bool
  | [] => true
  | (_, v) :: ps => unionsOk v && unionsOkPropList ps

/-- An `anyOf`/`allOf`/`oneOf` value that does not make `.map` throw: an
array (whose members the recursion enters), or anything falsy. -/
def unionsOkUnion : JVal → Bool
  | .arr xs => unionsOkList xs
  | v => !(truthy v)

/-- All members of a list satisfy the no-throw condition. -/
def unionsOkList : List JVal → Bool
  | [] => true
  | x :: xs => unionsOk x && unionsOkList xs

end

/-- The per-character effect of the two replacement passes taken together:
every ASCII control character (0x00-0x1F, which includes `\n`, `\r`, `\t`)
becomes a single space, every other character is unchanged. -/
def ctrlToSpace (c : Char) : Char :=
  if c.toNat ≤ 0x1F then ' ' else c

theorem stringDataInj {a b : String} (h : a.data = b.data) : a = b :=
  String.ext h

theorem ctrl_collapse (c : Char) :
    (fun c => if c.toNat ≤ 0x1F then ' ' else c)
      ((fun c => if c == '\n' || c == '\r' || c == '\t' then ' ' else c) c) =
    ctrlToSpace c := by
  by_cases h : (c == '\n' || c == '\r' || c == '\t') = true
  · simp only [Bool.or_eq_true, beq_iff_eq] at h
    obtain (rfl | rfl) | rfl := h <;> decide
  · simp only [h, if_false, Bool.not_eq_true] at *
    rfl

theorem sanitizeEnumValue_data (s : String) :
    (sanitizeEnumValue s).data = s.data.map ctrlToSpace := by
  show (s.data.map _).map _ = _
  rw [List.map_map]
  exact List.map_congr_left (fun c _ => ctrl_collapse c)

theorem ctrlToSpace_idem (c : Char) : ctrlToSpace (ctrlToSpace c) = ctrlToSpace c := by
  by_cases h : c.toNat ≤ 0x1F
  · simp only [ctrlToSpace, h, if_pos]
    decide
  · simp only [ctrlToSpace, h, if_neg, if_false]

theorem ctrlToSpace_not_ctrl (c : Char) : 0x1F < (ctrlToSpace c).toNat := by
  by_cases h : c.toNat ≤ 0x1F
  · simp only [ctrlToSpace, h, if_pos]
    decide
  · simpa [ctrlToSpace, h] using Nat.lt_of_not_le h

/-- C4: for every string `s`, `sanitizeEnumValue s` maps every character
through `ctrlToSpace`: each newline, carriage return and tab becomes a single
space, each remaining ASCII control character (0x00-0x1F) becomes a single
space, every non-control character is unchanged; consequently the output
contains no character in the range 0x00-0x1F. -/
theorem C4_sanitize_contract (s : String) :
    (sanitizeEnumValue s).data = s.data.map ctrlToSpace
    ∧ (∀ c : Char, c = '\n' ∨ c = '\r' ∨ c = '\t' → ctrlToSpace c = ' ')
    ∧ (∀ c : Char, c.toNat ≤ 0x1F → ctrlToSpace c = ' ')
    ∧ (∀ c : Char, 0x1F < c.toNat → ctrlToSpace c = c)
    ∧ (∀ c ∈ (sanitizeEnumValue s).data, 0x1F < c.toNat) := by
  refine ⟨sanitizeEnumValue_data s, ?_, ?_, ?_, ?_⟩
  · rintro c (rfl | rfl | rfl) <;> decide
  · intro c h
    simp [ctrlToSpace, h]
  · intro c h
    simp [ctrlToSpace, Nat.not_le.mpr h]
  · intro c hc
    rw [sanitizeEnumValue_data s] at hc
    obtain ⟨c', _, rfl⟩ := List.mem_map.mp hc
    exact ctrlToSpace_not_ctrl c'

/-- Witness for C4 at the concrete string `"a\nb"` and concrete characters. -/
theorem C4_sanitize_contract_witness :
    (sanitizeEnumValue "a\nb").data = ("a\nb" : String).data.map ctrlToSpace
    ∧ ctrlToSpace '\t' = ' '
    ∧ ctrlToSpace (Char.ofNat 1) = ' '
    ∧ ctrlToSpace 'a' = 'a'
    ∧ 0x1F < 'a'.toNat := by
  obtain ⟨h1, h2, h3, h4, h5⟩ := C4_sanitize_contract "a\nb"
  exact ⟨h1, h2 '\t' (Or.inr (Or.inr rfl)), h3 (Char.ofNat 1) (by decide),
    h4 'a' (by decide), h5 'a' (by decide)⟩

/-- C5: sanitization is idempotent: for every string `s`,
`sanitizeEnumValue (sanitizeEnumValue s) = sanitizeEnumValue s`. -/
theorem C5_sanitize_idempotent (s : String) :
    sanitizeEnumValue (sanitizeEnumValue s) = sanitizeEnumValue s := by
  apply stringDataInj
  rw [sanitizeEnumValue_data, sanitizeEnumValue_data, List.map_map]
  exact List.map_congr_left (fun c _ => ctrlToSpace_idem c)

theorem restoreList_map (xs : List JVal) (mm : EMap) :
    restoreList xs mm = xs.map (fun x => restoreEnumValues x mm) := by
  induction xs with
  | nil => rfl
  | cons x xs ih => simp [restoreList, ih]

theorem restoreEntries_map (es : List (String × JVal)) (mm : EMap) :
    restoreEntries es mm = es.map (fun e => (e.1, restoreEnumValues e.2 mm)) := by
  induction es with
  | nil => rfl
  | cons e es ih =>
    cases e
    simp [restoreEntries, ih]

/-- C7: the Restorer preserves the tree's shape: numbers, booleans and null
are returned unchanged; a string absent from the mapping is returned
unchanged and a string present in the mapping is replaced by its mapped
original; an array becomes the same-length, same-order array of restored
elements; an object keeps exactly its keys, in order, with only the values
restored (keys are never rewritten). -/
theorem C7_restore_structure (mm : EMap) :
    (∀ n : Int, restoreEnumValues (.num n) mm = .num n)
    ∧ (∀ b : Bool, restoreEnumValues (.bool b) mm = .bool b)
    ∧ restoreEnumValues .null mm = .null
    ∧ (∀ s : String, List.lookup s mm = none → restoreEnumValues (.str s) mm = .str s)
    ∧ (∀ s o : String, List.lookup s mm = some o → restoreEnumValues (.str s) mm = .str o)
    ∧ (∀ xs : List JVal,
        restoreEnumValues (.arr xs) mm = .arr (xs.map (fun x => restoreEnumValues x mm))
        ∧ (restoreList xs mm).length = xs.length)
    ∧ (∀ es : List (String × JVal),
        restoreEnumValues (.obj es) mm =
          .obj (es.map (fun e => (e.1, restoreEnumValues e.2 mm)))
        ∧ (restoreEntries es mm).map Prod.fst = es.map Prod.fst) := by
  refine ⟨fun n => rfl, fun b => rfl, rfl, ?_, ?_, ?_, ?_⟩
  · intro s h
    simp [restoreEnumValues, h]
  · intro s o h
    simp [restoreEnumValues, h]
  · intro xs
    refine ⟨?_, ?_⟩
    · simp [restoreEnumValues, restoreList_map]
    · rw [restoreList_map]
      simp
  · intro es
    refine ⟨?_, ?_⟩
    · simp [restoreEnumValues, restoreEntries_map]
    · rw [restoreEntries_map]
      simp

/-- Witness for C7 at a concrete mapping and concrete values. -/
theorem C7_restore_structure_witness :
    restoreEnumValues (.num 42) [("a b", "a\nb")] = .num 42
    ∧ restoreEnumValues (.str "other") [("a b", "a\nb")] = .str "other"
    ∧ restoreEnumValues (.str "a b") [("a b", "a\nb")] = .str "a\nb"
    ∧ restoreEnumValues (.arr [.str "a b", .null]) [("a b", "a\nb")] =
        .arr [.str "a\nb", .null]
    ∧ (restoreEntries [("content", JVal.str "a b")] [("a b", "a\nb")]).map Prod.fst =
        ["content"] := by
  obtain ⟨h1, _, _, h4, h5, h6, h7⟩ := C7_restore_structure [("a b", "a\nb")]
  refine ⟨h1 42, h4 "other" (by decide), h5 "a b" "a\nb" (by decide), ?_, ?_⟩
  · rw [(h6 [.str "a b", .null]).1]
    rfl
  · exact (h7 [("content", JVal.str "a b")]).2

theorem lookup_mem {α β : Type} [BEq α] [LawfulBEq α]
    {es : List (α × β)} {k : α} {v : β} (h : List.lookup k es = some v) :
    (k, v) ∈ es := by
  induction es with
  | nil => simp [List.lookup] at h
  | cons e es ih =>
    obtain ⟨b, c⟩ := e
    rw [List.lookup_cons] at h
    by_cases hb : (k == b) = true
    · simp only [hb] at h
      obtain rfl := beq_iff_eq.mp hb
      obtain rfl : c = v := by simpa using h
      exact List.mem_cons_self _ _
    · simp only [Bool.not_eq_true] at hb
      simp only [hb] at h
      exact List.mem_cons_of_mem _ (ih h)

theorem lookup_setKey_self (es : List (String × JVal)) (k : String) (v : JVal) :
    List.lookup k (setKey es k v) = some v := by
  induction es with
  | nil => simp [setKey, List.lookup_cons]
  | cons e es ih =>
    obtain ⟨k', v'⟩ := e
    by_cases h : (k' == k) = true
    · simp [setKey, h, List.lookup_cons]
    · simp only [Bool.not_eq_true] at h
      have h2 : (k == k') = false := by
        rw [beq_eq_false_iff_ne]
        exact fun hk => by simp [hk] at h
      simp [setKey, h, List.lookup_cons, h2, ih]

theorem lookup_setKey_ne (es : List (String × JVal)) (k k' : String) (v : JVal)
    (h : k' ≠ k) : List.lookup k' (setKey es k v) = List.lookup k' es := by
  induction es with
  | nil => simp [setKey, List.lookup_cons, beq_eq_false_iff_ne.mpr h]
  | cons e es ih =>
    obtain ⟨a, b⟩ := e
    by_cases ha : (a == k) = true
    · obtain rfl := beq_iff_eq.mp ha
      simp [setKey, List.lookup_cons, beq_eq_false_iff_ne.mpr h]
    · simp only [Bool.not_eq_true] at ha
      simp only [setKey, ha, Bool.false_eq_true, if_false]
      rw [List.lookup_cons, List.lookup_cons]
      cases hk : (k' == a) <;> simp [ih]

theorem mem_setKey {es : List (String × JVal)} {k : String} {v : JVal}
    {e : String × JVal} (h : e ∈ setKey es k v) : e = (k, v) ∨ e ∈ es := by
  induction es with
  | nil => simpa [setKey] using h
  | cons e' es ih =>
    obtain ⟨a, b⟩ := e'
    by_cases ha : (a == k) = true
    · simp only [setKey, if_pos ha, List.mem_cons] at h
      rcases h with h | h
      · exact Or.inl h
      · exact Or.inr (List.mem_cons_of_mem _ h)
    · simp only [setKey, if_neg ha, List.mem_cons] at h
      rcases h with h | h
      · exact Or.inr (by simp [h])
      · rcases ih h with h' | h'
        · exact Or.inl h'
        · exact Or.inr (List.mem_cons_of_mem _ h')

theorem mem_removeKey {es : List (String × JVal)} {k : String}
    {e : String × JVal} (h : e ∈ removeKey es k) : e ∈ es ∧ e.1 ≠ k := by
  have h' := List.mem_filter.mp h
  exact ⟨h'.1, by simpa using h'.2⟩

theorem lookup_removeKey_self (es : List (String × JVal)) (k : String) :
    List.lookup k (removeKey es k) = none := by
  induction es with
  | nil => simp [removeKey]
  | cons e es ih =>
    obtain ⟨a, b⟩ := e
    by_cases ha : (a == k) = true
    · obtain rfl := beq_iff_eq.mp ha
      simpa [removeKey] using ih
    · simp only [Bool.not_eq_true] at ha
      have h2 : (k == a) = false := by
        rw [beq_eq_false_iff_ne]
        exact fun hk => by simp [hk] at ha
      simp only [removeKey, List.filter_cons]
      simp only [bne, ha, Bool.not_false, if_true]
      rw [List.lookup_cons]
      simpa [h2, removeKey] using ih

theorem lookup_removeKey_ne (es : List (String × JVal)) (k k' : String)
    (h : k' ≠ k) : List.lookup k' (removeKey es k) = List.lookup k' es := by
  induction es with
  | nil => simp [removeKey]
  | cons e es ih =>
    obtain ⟨a, b⟩ := e
    by_cases ha : (a == k) = true
    · obtain rfl := beq_iff_eq.mp ha
      simp only [removeKey, List.filter_cons, bne_self_eq_false, if_false]
      rw [List.lookup_cons]
      simp only [beq_eq_false_iff_ne.mpr h]
      simpa [removeKey] using ih
    · simp only [Bool.not_eq_true] at ha
      simp only [removeKey, List.filter_cons]
      simp only [bne, ha, Bool.not_false, if_true]
      rw [List.lookup_cons, List.lookup_cons]
      cases hk : (k' == a) <;> simp_all [removeKey, bne]

theorem foldl_removeKey_mem {ks : List String} {es : List (String × JVal)}
    {e : String × JVal} (h : e ∈ ks.foldl removeKey es) : e ∈ es ∧ e.1 ∉ ks := by
  induction ks generalizing es with
  | nil => simpa using h
  | cons k0 ks ih =>
    rw [List.foldl_cons] at h
    obtain ⟨h1, h2⟩ := ih h
    obtain ⟨h3, h4⟩ := mem_removeKey h1
    refine ⟨h3, ?_⟩
    simp only [List.mem_cons, not_or]
    exact ⟨h4, h2⟩

theorem foldl_removeKey_lookup {ks : List String} {k : String}
    (es : List (String × JVal)) (h : k ∉ ks) :
    List.lookup k (ks.foldl removeKey es) = List.lookup k es := by
  induction ks generalizing es with
  | nil => rfl
  | cons k0 ks ih =>
    simp only [List.mem_cons, not_or] at h
    rw [List.foldl_cons, ih _ h.2, lookup_removeKey_ne _ _ _ h.1]

theorem foldl_removeKey_lookup_none {ks : List String} {k : String}
    (es : List (String × JVal)) (h : k ∈ ks) :
    List.lookup k (ks.foldl removeKey es) = none := by
  induction ks generalizing es with
  | nil => cases h
  | cons k0 ks ih =>
    rw [List.foldl_cons]
    by_cases hk : k ∈ ks
    · exact ih _ hk
    · have hk0 : k = k0 := by
        rcases List.mem_cons.mp h with h' | h'
        · exact h'
        · exact absurd h' hk
      subst hk0
      rw [foldl_removeKey_lookup _ hk, lookup_removeKey_self]

theorem removeKey_id {es : List (String × JVal)} {k : String}
    (h : ∀ e ∈ es, e.1 ≠ k) : removeKey es k = es := by
  apply List.filter_eq_self.mpr
  intro e he
  simpa using h e he

theorem stripUnsupported_id {es : List (String × JVal)}
    (h : ∀ e ∈ es, e.1 ∉ unsupportedKeys) : stripUnsupported es = es := by
  rw [stripUnsupported]
  generalize hks : unsupportedKeys = ks
  rw [hks] at h
  clear hks
  induction ks generalizing es with
  | nil => rfl
  | cons k0 ks ih =>
    rw [List.foldl_cons, removeKey_id, ih]
    · intro e he
      exact fun hm => h e he (List.mem_cons_of_mem _ hm)
    · intro e he
      exact fun hm => h e he (by simp [hm])

theorem mem_stripUnsupported {es : List (String × JVal)} {e : String × JVal}
    (h : e ∈ stripUnsupported es) : e ∈ es ∧ e.1 ∉ unsupportedKeys :=
  foldl_removeKey_mem h

theorem lookup_stripUnsupported {es : List (String × JVal)} {k : String}
    (h : k ∉ unsupportedKeys) :
    List.lookup k (stripUnsupported es) = List.lookup k es :=
  foldl_removeKey_lookup es h

theorem mem_mapSet {mm : EMap} {k v : String} {e : String × String}
    (h : e ∈ mapSet mm k v) : e = (k, v) ∨ e ∈ mm := by
  induction mm with
  | nil => simpa [mapSet] using h
  | cons e' rest ih =>
    obtain ⟨a, b⟩ := e'
    by_cases ha : (a == k) = true
    · simp only [mapSet, if_pos ha, List.mem_cons] at h
      rcases h with h | h
      · exact Or.inl h
      · exact Or.inr (List.mem_cons_of_mem _ h)
    · simp only [mapSet, if_neg ha, List.mem_cons] at h
      rcases h with h | h
      · exact Or.inr (by simp [h])
      · rcases ih h with h' | h'
        · exact Or.inl h'
        · exact Or.inr (List.mem_cons_of_mem _ h')

theorem keys_mapSet_subset {mm : EMap} {k v a : String}
    (h : a ∈ (mapSet mm k v).map Prod.fst) : a = k ∨ a ∈ mm.map Prod.fst := by
  obtain ⟨e, he, rfl⟩ := List.mem_map.mp h
  rcases mem_mapSet he with h' | h'
  · left
    rw [h']
  · right
    exact List.mem_map.mpr ⟨e, h', rfl⟩

theorem keysNodup_mapSet {mm : EMap} {k v : String} (h : keysNodup mm) :
    keysNodup (mapSet mm k v) := by
  induction mm with
  | nil => simp [mapSet, keysNodup]
  | cons e rest ih =>
    obtain ⟨a, b⟩ := e
    simp only [keysNodup, List.map_cons, List.nodup_cons] at h
    by_cases ha : (a == k) = true
    · obtain rfl := beq_iff_eq.mp ha
      simp only [mapSet, if_pos (by simp : (a == a) = true), keysNodup,
        List.map_cons, List.nodup_cons]
      exact h
    · have hak : a ≠ k := fun hh => ha (by simp [hh])
      simp only [mapSet, if_neg ha, keysNodup, List.map_cons, List.nodup_cons]
      refine ⟨?_, ih h.2⟩
      intro hmem
      rcases keys_mapSet_subset hmem with h' | h'
      · exact hak h'
      · exact h.1 h'

theorem lookup_of_mem_nodup {mm : EMap} {k v : String}
    (hn : keysNodup mm) (hm : (k, v) ∈ mm) : List.lookup k mm = some v := by
  induction mm with
  | nil => cases hm
  | cons e rest ih =>
    obtain ⟨a, b⟩ := e
    simp only [keysNodup, List.map_cons, List.nodup_cons] at hn
    rw [List.lookup_cons]
    rcases List.mem_cons.mp hm with h | h
    · injection h with h1 h2
      subst h1
      subst h2
      simp
    · by_cases hk : (k == a) = true
      · obtain rfl := beq_iff_eq.mp hk
        exact absurd (List.mem_map.mpr ⟨(k, v), h, rfl⟩) hn.1
      · simp only [Bool.not_eq_true] at hk
        simp only [hk]
        exact ih hn.2 h

theorem mapEvolve_refl (m : Option EMap) : MapEvolve m m := by
  cases m with
  | none => trivial
  | some mm => exact ⟨id, fun e he => Or.inl he⟩

theorem mapEvolve_trans {a b c : Option EMap}
    (h1 : MapEvolve a b) (h2 : MapEvolve b c) : MapEvolve a c := by
  cases a <;> cases b <;> cases c <;> simp only [MapEvolve] at h1 h2 ⊢
  exact ⟨fun hn => h2.1 (h1.1 hn),
    fun e he => (h2.2 e he).elim (fun hy => h1.2 e hy) Or.inr⟩

theorem mapEvolve_set {m : Option EMap} {k v : String} (hg : GoodEntry (k, v)) :
    MapEvolve m (m.map (fun mm => mapSet mm k v)) := by
  cases m with
  | none => trivial
  | some mm =>
    exact ⟨fun hn => keysNodup_mapSet hn,
      fun e he => (mem_mapSet he).elim (fun h => Or.inr (h ▸ hg)) Or.inl⟩

theorem sanitizeEnumList_fst (vs : List JVal) (m : Option EMap) :
    (sanitizeEnumList vs m).1 = vs.map sanitizeJ := by
  induction vs generalizing m with
  | nil => rfl
  | cons v vs ih =>
    cases v <;> simp [sanitizeEnumList, sanitizeJ, ih]

theorem sanitizeEnumList_evolve (vs : List JVal) (m : Option EMap) :
    MapEvolve m (sanitizeEnumList vs m).2 := by
  induction vs generalizing m with
  | nil => exact mapEvolve_refl m
  | cons v vs ih =>
    cases v with
    | str s =>
      simp only [sanitizeEnumList]
      by_cases hs : (sanitizeEnumValue s != s) = true
      · simp only [hs, if_true]
        refine mapEvolve_trans ?_ (ih _)
        exact mapEvolve_set ⟨rfl, by simpa using hs⟩
      · simp only [Bool.not_eq_true] at hs
        simp only [hs, Bool.false_eq_true, if_false]
        exact ih m
    | num n => exact ih m
    | bool b => exact ih m
    | null => exact ih m
    | arr xs => exact ih m
    | obj es => exact ih m

theorem strictGo_zero (s : JVal) (m : Option EMap) : strictGo 0 s m = none := rfl

theorem strictGo_succ_str (f : Nat) (s : String) (m : Option EMap) :
    strictGo (f + 1) (.str s) m = some (.str s, m) := rfl

theorem strictGo_succ_num (f : Nat) (n : Int) (m : Option EMap) :
    strictGo (f + 1) (.num n) m = some (.num n, m) := rfl

theorem strictGo_succ_bool (f : Nat) (b : Bool) (m : Option EMap) :
    strictGo (f + 1) (.bool b) m = some (.bool b, m) := rfl

theorem strictGo_succ_null (f : Nat) (m : Option EMap) :
    strictGo (f + 1) .null m = some (.null, m) := rfl

theorem strictGo_succ_arr (f : Nat) (xs : List JVal) (m : Option EMap) :
    strictGo (f + 1) (.arr xs) m =
      branchStep (fun v mm => strictGo f v mm) (spreadEntries (.arr xs))
        (prepNode (spreadEntries (.arr xs)) m).1
        (prepNode (spreadEntries (.arr xs)) m).2 := rfl

theorem strictGo_succ_obj (f : Nat) (es : List (String × JVal)) (m : Option EMap) :
    strictGo (f + 1) (.obj es) m =
      branchStep (fun v mm => strictGo f v mm) (spreadEntries (.obj es))
        (prepNode (spreadEntries (.obj es)) m).1
        (prepNode (spreadEntries (.obj es)) m).2 := rfl

theorem strictListC_evolve {go : JVal → Option EMap → Option (JVal × Option EMap)}
    (hgo : ∀ v m r, go v m = some r → MapEvolve m r.2) :
    ∀ xs m r, strictListC go xs m = some r → MapEvolve m r.2 := by
  intro xs
  induction xs with
  | nil =>
    intro m r h
    simp only [strictListC] at h
    cases h
    exact mapEvolve_refl m
  | cons x xs ih =>
    intro m r h
    cases hx : go x m with
    | none =>
      simp only [strictListC, hx] at h
      exact Option.noConfusion h
    | some r1 =>
      obtain ⟨x', m'⟩ := r1
      cases hrest : strictListC go xs m' with
      | none =>
        simp only [strictListC, hx, hrest] at h
        exact Option.noConfusion h
      | some r2 =>
        obtain ⟨xs', m''⟩ := r2
        simp only [strictListC, hx, hrest] at h
        cases h
        exact mapEvolve_trans (hgo x m (x', m') hx) (ih m' (xs', m'') hrest)

theorem strictPropsC_evolve {go : JVal → Option EMap → Option (JVal × Option EMap)}
    (hgo : ∀ v m r, go v m = some r → MapEvolve m r.2) :
    ∀ ps m r, strictPropsC go ps m = some r → MapEvolve m r.2 := by
  intro ps
  induction ps with
  | nil =>
    intro m r h
    simp only [strictPropsC] at h
    cases h
    exact mapEvolve_refl m
  | cons p ps ih =>
    obtain ⟨k, v⟩ := p
    intro m r h
    cases hv : go v m with
    | none =>
      simp only [strictPropsC, hv] at h
      exact Option.noConfusion h
    | some r1 =>
      obtain ⟨v', m'⟩ := r1
      cases hrest : strictPropsC go ps m' with
      | none =>
        simp only [strictPropsC, hv, hrest] at h
        exact Option.noConfusion h
      | some r2 =>
        obtain ⟨ps', m''⟩ := r2
        simp only [strictPropsC, hv, hrest] at h
        cases h
        exact mapEvolve_trans (hgo v m (v', m') hv) (ih m' (ps', m'') hrest)

theorem strictPropsC_keys {go : JVal → Option EMap → Option (JVal × Option EMap)} :
    ∀ ps m ps' m', strictPropsC go ps m = some (ps', m') →
      ps'.map Prod.fst = ps.map Prod.fst := by
  intro ps
  induction ps with
  | nil =>
    intro m ps' m' h
    simp only [strictPropsC] at h
    cases h
    rfl
  | cons p ps ih =>
    obtain ⟨k, v⟩ := p
    intro m ps' m' h
    cases hv : go v m with
    | none =>
      simp only [strictPropsC, hv] at h
      exact Option.noConfusion h
    | some r1 =>
      obtain ⟨v', m1⟩ := r1
      cases hrest : strictPropsC go ps m1 with
      | none =>
        simp only [strictPropsC, hv, hrest] at h
        exact Option.noConfusion h
      | some r2 =>
        obtain ⟨ps2, m2⟩ := r2
        simp only [strictPropsC, hv, hrest] at h
        cases h
        have hk := ih _ _ _ hrest
        simpa using hk

theorem enumPhase_evolve (n2 : List (String × JVal)) (m : Option EMap) :
    MapEvolve m (enumPhase n2 m).2 := by
  unfold enumPhase
  cases h : List.lookup "enum" n2 with
  | none => exact mapEvolve_refl m
  | some v =>
    cases v with
    | arr vs => exact sanitizeEnumList_evolve vs m
    | str s => exact mapEvolve_refl m
    | num n => exact mapEvolve_refl m
    | bool b => exact mapEvolve_refl m
    | null => exact mapEvolve_refl m
    | obj es => exact mapEvolve_refl m

theorem prepNode_evolve (es0 : List (String × JVal)) (m : Option EMap) :
    MapEvolve m (prepNode es0 m).2 :=
  enumPhase_evolve _ m

theorem unionStep_evolve {go : JVal → Option EMap → Option (JVal × Option EMap)}
    (hgo : ∀ v m r, go v m = some r → MapEvolve m r.2)
    {es0 n3 : List (String × JVal)} {m1 : Option EMap} {k : String}
    {r : JVal × Option EMap} (h : unionStep go es0 n3 m1 k = some r) :
    MapEvolve m1 r.2 := by
  unfold unionStep at h
  split at h
  · rename_i xs heq
    cases hl : strictListC go xs m1 with
    | none => rw [hl] at h; cases h
    | some r2 =>
      rw [hl] at h
      obtain ⟨xs', m2⟩ := r2
      cases h
      exact strictListC_evolve hgo xs m1 (xs', m2) hl
  · cases h

theorem branchStep_evolve {go : JVal → Option EMap → Option (JVal × Option EMap)}
    (hgo : ∀ v m r, go v m = some r → MapEvolve m r.2)
    {es0 n3 : List (String × JVal)} {m1 : Option EMap}
    {r : JVal × Option EMap} (h : branchStep go es0 n3 m1 = some r) :
    MapEvolve m1 r.2 := by
  unfold branchStep at h
  split at h
  · -- object branch
    split at h
    · rename_i props heq
      split at h
      · -- truthy properties
        cases hp : strictPropsC go (propPairs props) m1 with
        | none => rw [hp] at h; cases h
        | some r2 =>
          rw [hp] at h
          obtain ⟨np, m2⟩ := r2
          cases h
          exact strictPropsC_evolve hgo _ m1 (np, m2) hp
      · cases h
        exact mapEvolve_refl m1
    · cases h
      exact mapEvolve_refl m1
  · split at h
    · -- array branch
      split at h
      · rename_i items heq
        split at h
        · cases hi : go items m1 with
          | none => rw [hi] at h; cases h
          | some r2 =>
            rw [hi] at h
            obtain ⟨items', m2⟩ := r2
            cases h
            exact hgo items m1 (items', m2) hi
        · cases h
          exact mapEvolve_refl m1
      · cases h
        exact mapEvolve_refl m1
    · split at h
      · exact unionStep_evolve hgo h
      · split at h
        · exact unionStep_evolve hgo h
        · split at h
          · exact unionStep_evolve hgo h
          · cases h
            exact mapEvolve_refl m1

theorem strictGo_evolve :
    ∀ (f : Nat) (s : JVal) (m : Option EMap) (r : JVal × Option EMap),
      strictGo f s m = some r → MapEvolve m r.2 := by
  intro f
  induction f with
  | zero =>
    intro s m r h
    exact Option.noConfusion h
  | succ f ih =>
    intro s m r h
    cases s with
    | str s =>
      rw [strictGo_succ_str] at h
      cases h
      exact mapEvolve_refl m
    | num n =>
      rw [strictGo_succ_num] at h
      cases h
      exact mapEvolve_refl m
    | bool b =>
      rw [strictGo_succ_bool] at h
      cases h
      exact mapEvolve_refl m
    | null =>
      rw [strictGo_succ_null] at h
      cases h
      exact mapEvolve_refl m
    | arr xs =>
      rw [strictGo_succ_arr] at h
      generalize hp : prepNode (spreadEntries (.arr xs)) m = p at h
      have h1 : MapEvolve m p.2 := by
        rw [← hp]
        exact prepNode_evolve _ m
      exact mapEvolve_trans h1
        (branchStep_evolve (fun v mm r' h' => ih v mm r' h') h)
    | obj es =>
      rw [strictGo_succ_obj] at h
      generalize hp : prepNode (spreadEntries (.obj es)) m = p at h
      have h1 : MapEvolve m p.2 := by
        rw [← hp]
        exact prepNode_evolve _ m
      exact mapEvolve_trans h1
        (branchStep_evolve (fun v mm r' h' => ih v mm r' h') h)

theorem makeSchemaStrict_evolve {s : JVal} {m : Option EMap}
    {r : JVal × Option EMap} (h : makeSchemaStrict s m = some r) :
    MapEvolve m r.2 :=
  strictGo_evolve _ s m r h

/-- C1 (amended): for every input schema strictified with a freshly created
mapping, every entry `(k, v)` of the resulting mapping satisfies
`k = sanitizeEnumValue v` with `k ≠ v` (it records a string enum/const member
that sanitization changed), and applying the Restorer to the sanitized string
`k` with that mapping returns exactly the recorded original `v`.  The claim's
unrestricted form — that this recovers the original for *every* changed
member — fails when two distinct members sanitize to the same string: the
mapping keeps only the last writer (see the counterexample). -/
theorem C1_roundtrip_mapping {s out : JVal} {M : EMap}
    (h : makeSchemaStrict s (some []) = some (out, some M))
    {k v : String} (hm : (k, v) ∈ M) :
    k = sanitizeEnumValue v ∧ k ≠ v ∧ restoreEnumValues (.str k) M = .str v := by
  have he := makeSchemaStrict_evolve h
  obtain ⟨hnd, hent⟩ := he
  have hg : GoodEntry (k, v) := (hent (k, v) hm).resolve_left (List.not_mem_nil _)
  have hnodup : keysNodup M := hnd (by simp [keysNodup])
  refine ⟨hg.1, hg.2, ?_⟩
  have hl : List.lookup k M = some v := lookup_of_mem_nodup hnodup hm
  simp [restoreEnumValues, hl]

/-- Witness for C1 at a concrete schema with one sanitized enum member. -/
theorem C1_roundtrip_mapping_witness :
    "a b" = sanitizeEnumValue "a\nb" ∧ "a b" ≠ "a\nb"
    ∧ restoreEnumValues (.str "a b") [("a b", "a\nb")] = .str "a\nb" :=
  @C1_roundtrip_mapping (.obj [("enum", .arr [.str "a\nb"])])
    (.obj [("enum", .arr [.str "a b"])]) [("a b", "a\nb")] (by rfl)
    "a b" "a\nb" (by decide)

/-- Counterexample to C1 as stated: in the schema
`{type:"string", enum:["a\nb", "a\tb"]}` both members are changed by
sanitization to `"a b"`, the mapping retains only the last original
(`"a\tb"`), and restoring the sanitized form of the first member returns
`"a\tb"`, not the original `"a\nb"`. -/
theorem C1_collision_counterexample :
    makeSchemaStrict
        (.obj [("type", .str "string"), ("enum", .arr [.str "a\nb", .str "a\tb"])])
        (some []) =
      some (.obj [("type", .str "string"), ("enum", .arr [.str "a b", .str "a b"])],
        some [("a b", "a\tb")])
    ∧ sanitizeEnumValue "a\nb" = "a b"
    ∧ sanitizeEnumValue "a\nb" ≠ "a\nb"
    ∧ restoreEnumValues (.str (sanitizeEnumValue "a\nb")) [("a b", "a\tb")] =
        .str "a\tb"
    ∧ "a\tb" ≠ "a\nb" :=
  ⟨by rfl, by rfl, by decide, by rfl, by decide⟩

theorem lookup_none_of_keys {es : List (String × JVal)} {k : String}
    (h : ∀ e ∈ es, e.1 ≠ k) : List.lookup k es = none := by
  induction es with
  | nil => rfl
  | cons e es ih =>
    obtain ⟨a, b⟩ := e
    rw [List.lookup_cons]
    have ha : a ≠ k := h (a, b) (by simp)
    have hk : (k == a) = false := by
      rw [beq_eq_false_iff_ne]
      exact fun hh => ha hh.symm
    simp only [hk]
    exact ih (fun e he => h e (List.mem_cons_of_mem _ he))

/-- Passthrough on unrecognized inputs: scalars and `null` are returned
unchanged, and an object none of whose keys is recognized is returned as an
unmodified shallow copy, without recursing into its values. -/
theorem unrecognized_passthrough :
    (∀ (s : String) (m : Option EMap),
      makeSchemaStrict (.str s) m = some (.str s, m))
    ∧ (∀ (n : Int) (m : Option EMap),
      makeSchemaStrict (.num n) m = some (.num n, m))
    ∧ (∀ (b : Bool) (m : Option EMap),
      makeSchemaStrict (.bool b) m = some (.bool b, m))
    ∧ (∀ m : Option EMap, makeSchemaStrict .null m = some (.null, m))
    ∧ (∀ (es : List (String × JVal)) (m : Option EMap),
      (∀ e ∈ es, e.1 ∉ recognizedKeys) →
      makeSchemaStrict (.obj es) m = some (.obj es, m)) := by
  refine ⟨fun s m => rfl, fun n m => rfl, fun b m => rfl, fun m => rfl, ?_⟩
  intro es m h
  have hnotun : ∀ e ∈ es, e.1 ∉ unsupportedKeys := by
    intro e he hu
    exact h e he (by simp [recognizedKeys, hu])
  have hkey : ∀ k : String, k ∈ ["const", "enum", "type", "properties",
      "items", "anyOf", "allOf", "oneOf"] → List.lookup k es = none := by
    intro k hk
    apply lookup_none_of_keys
    intro e he hek
    exact h e he (by simp [recognizedKeys]; right; rw [hek]; simpa using hk)
  have hprep : prepNode es m = (es, m) := by
    have h1 : stripUnsupported es = es := stripUnsupported_id hnotun
    have h2 : constPhase es = es := by
      simp [constPhase, containsKey, hkey "const" (by simp)]
    simp [prepNode, h1, h2, enumPhase, hkey "enum" (by simp)]
  show strictGo (jsize (.obj es) + 1) (.obj es) m = some (.obj es, m)
  rw [strictGo_succ_obj]
  have hsp : spreadEntries (.obj es) = es := rfl
  rw [hsp, hprep]
  simp [branchStep, typeIs, getKey, truthy,
    hkey "type" (by simp), hkey "properties" (by simp), hkey "items" (by simp),
    hkey "anyOf" (by simp), hkey "allOf" (by simp), hkey "oneOf" (by simp)]

/-- Counterexample to C8 as stated: `makeSchemaStrict({anyOf: 1})` reaches
`schema.anyOf.map(...)` with the truthy non-array value `1`, which throws a
`TypeError` (modelled as `none`) instead of returning a result. -/
theorem C8_throw_counterexample :
    makeSchemaStrict (.obj [("anyOf", .num 1)]) none = none := rfl

theorem lookup_constPhase_of_const {n1 : List (String × JVal)} {c : JVal}
    (h : List.lookup "const" n1 = some c) :
    List.lookup "const" (constPhase n1) = none ∧
    List.lookup "enum" (constPhase n1) = some (.arr [c]) := by
  have hck : containsKey n1 "const" = true := by simp [containsKey, h]
  rw [constPhase, if_pos hck]
  refine ⟨lookup_removeKey_self _ _, ?_⟩
  rw [lookup_removeKey_ne _ _ _ (by decide), lookup_setKey_self, h]
  rfl

theorem enumPhase_of_arr {n2 : List (String × JVal)} {vs : List JVal}
    (m : Option EMap) (h : List.lookup "enum" n2 = some (.arr vs)) :
    enumPhase n2 m =
      (setKey n2 "enum" (.arr (vs.map sanitizeJ)), (sanitizeEnumList vs m).2) := by
  simp [enumPhase, h, sanitizeEnumList_fst]

theorem prepNode_of_const {es : List (String × JVal)} {c : JVal}
    (m : Option EMap) (hc : List.lookup "const" es = some c) :
    prepNode es m =
      (setKey (constPhase (stripUnsupported es)) "enum" (.arr [sanitizeJ c]),
       (sanitizeEnumList [c] m).2) := by
  have h1 : List.lookup "const" (stripUnsupported es) = some c :=
    (lookup_stripUnsupported (by decide)).trans hc
  rw [prepNode, enumPhase_of_arr m (lookup_constPhase_of_const h1).2]
  simp only [List.map_cons, List.map_nil]

theorem prepNode_of_const_fst {es : List (String × JVal)} {c : JVal}
    (m : Option EMap) (hc : List.lookup "const" es = some c) :
    (prepNode es m).1 =
      setKey (constPhase (stripUnsupported es)) "enum" (.arr [sanitizeJ c]) := by
  rw [prepNode_of_const m hc]

theorem prepNode_of_const_snd {es : List (String × JVal)} {c : JVal}
    (m : Option EMap) (hc : List.lookup "const" es = some c) :
    (prepNode es m).2 = (sanitizeEnumList [c] m).2 := by
  rw [prepNode_of_const m hc]

theorem unionStep_lookup {go : JVal → Option EMap → Option (JVal × Option EMap)}
    {es0 n3 : List (String × JVal)} {m1 : Option EMap} {out : JVal}
    {m' : Option EMap} {kk : String}
    (h : unionStep go es0 n3 m1 kk = some (out, m')) :
    ∃ oes, out = .obj oes ∧ ∀ k : String, k ≠ kk →
      List.lookup k oes = List.lookup k n3 := by
  unfold unionStep at h
  split at h
  · rename_i xs heq
    cases hl : strictListC go xs m1 with
    | none =>
      rw [hl] at h
      exact Option.noConfusion h
    | some r2 =>
      rw [hl] at h
      obtain ⟨xs', m2⟩ := r2
      cases h
      exact ⟨_, rfl, fun k hk => lookup_setKey_ne _ _ _ _ hk⟩
  · exact Option.noConfusion h

theorem branchStep_lookup {go : JVal → Option EMap → Option (JVal × Option EMap)}
    {es0 n3 : List (String × JVal)} {m1 : Option EMap} {out : JVal}
    {m' : Option EMap} (h : branchStep go es0 n3 m1 = some (out, m')) :
    ∃ oes, out = .obj oes ∧ ∀ k : String,
      k ∉ ["additionalProperties", "required", "properties", "items",
           "anyOf", "allOf", "oneOf"] →
      List.lookup k oes = List.lookup k n3 := by
  unfold branchStep at h
  split at h
  · split at h
    · rename_i props heq
      split at h
      · cases hp : strictPropsC go (propPairs props) m1 with
        | none =>
          rw [hp] at h
          exact Option.noConfusion h
        | some r2 =>
          rw [hp] at h
          obtain ⟨np, m2⟩ := r2
          cases h
          refine ⟨_, rfl, fun k hk => ?_⟩
          simp only [List.mem_cons, not_or] at hk
          rw [lookup_setKey_ne _ _ _ _ hk.2.2.1, lookup_setKey_ne _ _ _ _ hk.2.1,
            lookup_setKey_ne _ _ _ _ hk.1]
      · cases h
        refine ⟨_, rfl, fun k hk => ?_⟩
        simp only [List.mem_cons, not_or] at hk
        rw [lookup_setKey_ne _ _ _ _ hk.1]
    · cases h
      refine ⟨_, rfl, fun k hk => ?_⟩
      simp only [List.mem_cons, not_or] at hk
      rw [lookup_setKey_ne _ _ _ _ hk.1]
  · split at h
    · split at h
      · rename_i items heq
        split at h
        · cases hi : go items m1 with
          | none =>
            rw [hi] at h
            exact Option.noConfusion h
          | some r2 =>
            rw [hi] at h
            obtain ⟨items', m2⟩ := r2
            cases h
            refine ⟨_, rfl, fun k hk => ?_⟩
            simp only [List.mem_cons, not_or] at hk
            rw [lookup_setKey_ne _ _ _ _ hk.2.2.2.1]
        · cases h
          exact ⟨_, rfl, fun k _ => rfl⟩
      · cases h
        exact ⟨_, rfl, fun k _ => rfl⟩
    · split at h
      · obtain ⟨oes, rfl, hlk⟩ := unionStep_lookup h
        refine ⟨oes, rfl, fun k hk => ?_⟩
        simp only [List.mem_cons, not_or] at hk
        exact hlk k hk.2.2.2.2.1
      · split at h
        · obtain ⟨oes, rfl, hlk⟩ := unionStep_lookup h
          refine ⟨oes, rfl, fun k hk => ?_⟩
          simp only [List.mem_cons, not_or] at hk
          exact hlk k hk.2.2.2.2.2.1
        · split at h
          · obtain ⟨oes, rfl, hlk⟩ := unionStep_lookup h
            refine ⟨oes, rfl, fun k hk => ?_⟩
            simp only [List.mem_cons, not_or] at hk
            exact hlk k hk.2.2.2.2.2.2.1
          · cases h
            exact ⟨_, rfl, fun k _ => rfl⟩

theorem branchStep_leaf (go : JVal → Option EMap → Option (JVal × Option EMap))
    {es0 : List (String × JVal)} (n3 : List (String × JVal)) (m1 : Option EMap)
    (ht1 : typeIs es0 "object" = false)
    (hp : List.lookup "properties" es0 = none)
    (ht2 : typeIs es0 "array" = false)
    (hi : List.lookup "items" es0 = none)
    (ha : List.lookup "anyOf" es0 = none)
    (hal : List.lookup "allOf" es0 = none)
    (ho : List.lookup "oneOf" es0 = none) :
    branchStep go es0 n3 m1 = some (.obj n3, m1) := by
  unfold branchStep
  simp [ht1, ht2, hp, hi, ha, hal, ho, getKey, truthy]

theorem spreadEntries_obj (es : List (String × JVal)) :
    spreadEntries (.obj es) = es := rfl

/-- C6: for every schema node carrying a `const` keyword, the Strictifier's
output for that node has no `const` keyword and has an `enum` array whose
sole element is the `const` value (sanitized when it is a string); and the
concrete scenario `{type:"object", properties:{content:{type:"string",
const:"a\nb"}}}` strictifies to `properties.content.enum == ["a b"]` with no
`const`, `required == ["content"]`, and `additionalProperties == false`. -/
theorem C6_const_rewrite :
    (∀ (es : List (String × JVal)) (c : JVal) (m m' : Option EMap) (out : JVal),
      List.lookup "const" es = some c →
      makeSchemaStrict (.obj es) m = some (out, m') →
      jlookup out "const" = none ∧ jlookup out "enum" = some (.arr [sanitizeJ c]))
    ∧ makeSchemaStrict
        (.obj [("type", .str "object"),
               ("properties", .obj [("content",
                  .obj [("type", .str "string"), ("const", .str "a\nb")])])])
        (some []) =
      some (.obj [("type", .str "object"),
             ("properties", .obj [("content",
                .obj [("type", .str "string"), ("enum", .arr [.str "a b"])])]),
             ("additionalProperties", .bool false),
             ("required", .arr [.str "content"])],
        some [("a b", "a\nb")]) := by
  constructor
  · intro es c m m' out hc h
    unfold makeSchemaStrict at h
    rw [strictGo_succ_obj, spreadEntries_obj] at h
    generalize hq : prepNode es m = p at h
    obtain ⟨oes, rfl, hlk⟩ := branchStep_lookup h
    have hp1 : p.1 =
        setKey (constPhase (stripUnsupported es)) "enum" (.arr [sanitizeJ c]) := by
      rw [← hq]
      exact prepNode_of_const_fst m hc
    have h1 : List.lookup "const" (stripUnsupported es) = some c :=
      (lookup_stripUnsupported (by decide)).trans hc
    constructor
    · show List.lookup "const" oes = none
      rw [hlk "const" (by decide), hp1, lookup_setKey_ne _ _ _ _ (by decide)]
      exact (lookup_constPhase_of_const h1).1
    · show List.lookup "enum" oes = some (.arr [sanitizeJ c])
      rw [hlk "enum" (by decide), hp1, lookup_setKey_self]
  · rfl

/-- Witness for C6's general part at the concrete node `{const: "x\ny"}`. -/
theorem C6_const_rewrite_witness :
    jlookup (.obj [("enum", .arr [.str "x y"])]) "const" = none
    ∧ jlookup (.obj [("enum", .arr [.str "x y"])]) "enum" =
        some (.arr [sanitizeJ (.str "x\ny")]) :=
  C6_const_rewrite.1 [("const", .str "x\ny")] (.str "x\ny") none none
    (.obj [("enum", .arr [.str "x y"])]) (by rfl) (by rfl)

/-- C10: on any node that carries both a `const` keyword and an `enum`
array — whatever its shape: object, array, union or leaf — a successful
strictification yields an output node whose `enum` is exactly the one-element
list holding the sanitized `const` value and which carries no `const`; the
node-local mapping state after the rewrite is exactly what sanitizing the
single-element list `[const]` produces (the node's original `enum` members
are discarded and contribute nothing to it), and the final mapping only
extends that state with entries justified by sanitization at nested nodes. -/
theorem C10_const_overrides_enum
    {es : List (String × JVal)} {c : JVal} {vs : List JVal}
    {m m' : Option EMap} {out : JVal}
    (hc : List.lookup "const" es = some c)
    (_he : List.lookup "enum" es = some (.arr vs))
    (h : makeSchemaStrict (.obj es) m = some (out, m')) :
    jlookup out "enum" = some (.arr [sanitizeJ c])
    ∧ jlookup out "const" = none
    ∧ (prepNode es m).2 = (sanitizeEnumList [c] m).2
    ∧ MapEvolve (sanitizeEnumList [c] m).2 m' := by
  unfold makeSchemaStrict at h
  rw [strictGo_succ_obj, spreadEntries_obj] at h
  generalize hq : prepNode es m = p at h
  have hev : MapEvolve p.2 m' :=
    branchStep_evolve
      (fun v mv r hh => strictGo_evolve (jsize (JVal.obj es)) v mv r hh) h
  obtain ⟨oes, rfl, hlk⟩ := branchStep_lookup h
  have hp1 : p.1 =
      setKey (constPhase (stripUnsupported es)) "enum" (.arr [sanitizeJ c]) := by
    rw [← hq]
    exact prepNode_of_const_fst m hc
  have hp2 : p.2 = (sanitizeEnumList [c] m).2 := by
    rw [← hq]
    exact prepNode_of_const_snd m hc
  have h1 : List.lookup "const" (stripUnsupported es) = some c :=
    (lookup_stripUnsupported (by decide)).trans hc
  refine ⟨?_, ?_, ?_, ?_⟩
  · show List.lookup "enum" oes = some (.arr [sanitizeJ c])
    rw [hlk "enum" (by decide), hp1, lookup_setKey_self]
  · show List.lookup "const" oes = none
    rw [hlk "const" (by decide), hp1, lookup_setKey_ne _ _ _ _ (by decide)]
    exact (lookup_constPhase_of_const h1).1
  · exact hp2
  · rw [← hp2]
    exact hev

/-- Witness for C10 at the object-shaped node
`{type:"object", const:"x\ny", enum:["a\nb", 5]}` with a fresh mapping: the
old members are discarded and only the sanitized const enters the mapping. -/
theorem C10_const_overrides_enum_witness :
    jlookup (.obj [("type", .str "object"), ("enum", .arr [.str "x y"]),
        ("additionalProperties", .bool false)]) "enum" =
      some (.arr [sanitizeJ (.str "x\ny")])
    ∧ jlookup (.obj [("type", .str "object"), ("enum", .arr [.str "x y"]),
        ("additionalProperties", .bool false)]) "const" = none
    ∧ (prepNode [("type", JVal.str "object"), ("const", JVal.str "x\ny"),
        ("enum", JVal.arr [JVal.str "a\nb", JVal.num 5])] (some [])).2 =
      (sanitizeEnumList [JVal.str "x\ny"] (some [])).2
    ∧ MapEvolve (sanitizeEnumList [JVal.str "x\ny"] (some [])).2
        (some [("x y", "x\ny")]) :=
  @C10_const_overrides_enum
    [("type", JVal.str "object"), ("const", JVal.str "x\ny"),
     ("enum", JVal.arr [JVal.str "a\nb", JVal.num 5])]
    (.str "x\ny") [JVal.str "a\nb", JVal.num 5] (some [])
    (some [("x y", "x\ny")])
    (.obj [("type", .str "object"), ("enum", .arr [.str "x y"]),
      ("additionalProperties", .bool false)])
    (by rfl) (by rfl) (by rfl)

theorem cleanDeep_arr (xs : List JVal) : cleanDeep (.arr xs) = cleanList xs := by
  simp [cleanDeep]

theorem cleanDeep_obj (es : List (String × JVal)) :
    cleanDeep (.obj es) = cleanEntries es := by
  simp [cleanDeep]

theorem closedDeep_arr (xs : List JVal) : closedDeep (.arr xs) = closedList xs := by
  simp [closedDeep]

theorem closedDeep_obj (es : List (String × JVal)) :
    closedDeep (.obj es) = (nodeClosed es && closedEntries es) := by
  simp [closedDeep]

theorem scalar_clean_closed {v : JVal} (h : isScalar v = true) :
    cleanDeep v = true ∧ closedDeep v = true := by
  cases v <;> simp_all [isScalar, cleanDeep, closedDeep]

theorem cleanList_forall (xs : List JVal) :
    cleanList xs = true ↔ ∀ x ∈ xs, cleanDeep x = true := by
  induction xs with
  | nil => simp [cleanList]
  | cons x xs ih => simp [cleanList, Bool.and_eq_true, ih]

theorem closedList_forall (xs : List JVal) :
    closedList xs = true ↔ ∀ x ∈ xs, closedDeep x = true := by
  induction xs with
  | nil => simp [closedList]
  | cons x xs ih => simp [closedList, Bool.and_eq_true, ih]

theorem cleanEntries_forall (es : List (String × JVal)) :
    cleanEntries es = true ↔ ∀ e ∈ es, cleanEntryVal e.1 e.2 = true := by
  induction es with
  | nil => simp [cleanEntries]
  | cons e es ih =>
    obtain ⟨k, v⟩ := e
    simp [cleanEntries, Bool.and_eq_true, ih]

theorem closedEntries_forall (es : List (String × JVal)) :
    closedEntries es = true ↔ ∀ e ∈ es, closedEntryVal e.1 e.2 = true := by
  induction es with
  | nil => simp [closedEntries]
  | cons e es ih =>
    obtain ⟨k, v⟩ := e
    simp [closedEntries, Bool.and_eq_true, ih]

theorem wfEntries_forall (es : List (String × JVal)) :
    wfEntries es = true ↔ ∀ e ∈ es, wfEntryVal e.1 e.2 = true := by
  induction es with
  | nil => simp [wfEntries]
  | cons e es ih =>
    obtain ⟨k, v⟩ := e
    simp [wfEntries, Bool.and_eq_true, ih]

theorem wfList_forall (xs : List JVal) :
    wfList xs = true ↔ ∀ x ∈ xs, wfSchema x = true := by
  induction xs with
  | nil => simp [wfList]
  | cons x xs ih => simp [wfList, Bool.and_eq_true, ih]

theorem wfPropList_forall (ps : List (String × JVal)) :
    wfPropList ps = true ↔ ∀ e ∈ ps, wfSchema e.2 = true := by
  induction ps with
  | nil => simp [wfPropList]
  | cons e ps ih =>
    obtain ⟨k, v⟩ := e
    simp [wfPropList, Bool.and_eq_true, ih]

theorem cleanPropList_forall (ps : List (String × JVal)) :
    cleanPropList ps = true ↔ ∀ e ∈ ps, cleanDeep e.2 = true := by
  induction ps with
  | nil => simp [cleanPropList]
  | cons e ps ih =>
    obtain ⟨k, v⟩ := e
    simp [cleanPropList, Bool.and_eq_true, ih]

theorem closedPropList_forall (ps : List (String × JVal)) :
    closedPropList ps = true ↔ ∀ e ∈ ps, closedDeep e.2 = true := by
  induction ps with
  | nil => simp [closedPropList]
  | cons e ps ih =>
    obtain ⟨k, v⟩ := e
    simp [closedPropList, Bool.and_eq_true, ih]

theorem scalarish_clean_closed {v : JVal} (h : scalarish v = true) :
    cleanDeep v = true ∧ closedDeep v = true := by
  cases v with
  | arr xs =>
    have hall : ∀ x ∈ xs, isScalar x = true := by
      simpa [scalarish, List.all_eq_true] using h
    constructor
    · rw [cleanDeep_arr]
      exact (cleanList_forall xs).mpr fun x hx => (scalar_clean_closed (hall x hx)).1
    · rw [closedDeep_arr]
      exact (closedList_forall xs).mpr fun x hx => (scalar_clean_closed (hall x hx)).2
  | obj es => simp [scalarish, isScalar] at h
  | str s => exact scalar_clean_closed (by rfl)
  | num n => exact scalar_clean_closed (by rfl)
  | bool b => exact scalar_clean_closed (by rfl)
  | null => exact scalar_clean_closed (by rfl)

theorem isScalar_sanitizeJ (v : JVal) : isScalar (sanitizeJ v) = isScalar v := by
  cases v <;> rfl

theorem falsy_wf_scalar {v : JVal} (hw : wfSchema v = true) (ht : truthy v = false) :
    isScalar v = true := by
  cases v <;> simp_all [wfSchema, truthy, isScalar]

theorem mem_containsKey {es : List (String × JVal)} {k : String} {v : JVal}
    (h : (k, v) ∈ es) : containsKey es k = true := by
  induction es with
  | nil => cases h
  | cons e es ih =>
    obtain ⟨a, b⟩ := e
    rcases List.mem_cons.mp h with h' | h'
    · injection h' with h1 h2
      subst h1
      simp [containsKey, List.lookup_cons]
    · by_cases hk : (k == a) = true
      · simp [containsKey, List.lookup_cons, hk]
      · simp only [Bool.not_eq_true] at hk
        simpa [containsKey, List.lookup_cons, hk] using ih h'

theorem not_containsKey_forall {es : List (String × JVal)} {k : String}
    (h : containsKey es k = false) : ∀ e ∈ es, e.1 ≠ k := by
  rintro ⟨a, b⟩ he rfl
  rw [mem_containsKey he] at h
  cases h

theorem containsKey_filter {es : List (String × JVal)}
    {p : String × JVal → Bool} {k : String}
    (h : containsKey (es.filter p) k = true) : containsKey es k = true := by
  obtain ⟨v, hv⟩ := Option.isSome_iff_exists.mp h
  exact mem_containsKey (List.mem_filter.mp (lookup_mem hv)).1

theorem nodupKeysJ_filter {es : List (String × JVal)} {p : String × JVal → Bool}
    (h : nodupKeysJ es = true) : nodupKeysJ (es.filter p) = true := by
  induction es with
  | nil => simpa using h
  | cons e es ih =>
    obtain ⟨a, b⟩ := e
    simp only [nodupKeysJ, Bool.and_eq_true] at h
    obtain ⟨h1, h2⟩ := h
    rw [List.filter_cons]
    by_cases hp : p (a, b) = true
    · rw [if_pos hp]
      simp only [nodupKeysJ, Bool.and_eq_true]
      refine ⟨?_, ih h2⟩
      have ha : containsKey es a = false := by simpa using h1
      by_cases hc : containsKey (es.filter p) a = true
      · rw [containsKey_filter hc] at ha
        cases ha
      · simpa using (Bool.not_eq_true _).mp hc
    · rw [if_neg hp]
      exact ih h2

theorem containsKey_setKey {es : List (String × JVal)} {k a : String} {v : JVal}
    (h : containsKey (setKey es k v) a = true) :
    a = k ∨ containsKey es a = true := by
  obtain ⟨w, hw⟩ := Option.isSome_iff_exists.mp h
  rcases mem_setKey (lookup_mem hw) with h' | h'
  · left
    injection h' with h1 h2
  · exact Or.inr (mem_containsKey h')

theorem nodupKeysJ_setKey {es : List (String × JVal)} {k : String} {v : JVal}
    (h : nodupKeysJ es = true) : nodupKeysJ (setKey es k v) = true := by
  induction es with
  | nil => simp [setKey, nodupKeysJ, containsKey]
  | cons e es ih =>
    obtain ⟨a, b⟩ := e
    simp only [nodupKeysJ, Bool.and_eq_true] at h
    obtain ⟨h1, h2⟩ := h
    have ha : containsKey es a = false := by simpa using h1
    by_cases hk : (a == k) = true
    · obtain rfl := beq_iff_eq.mp hk
      simp only [setKey, if_pos (by simp : (a == a) = true), nodupKeysJ,
        Bool.and_eq_true]
      exact ⟨by simpa using ha, h2⟩
    · simp only [setKey, if_neg hk, nodupKeysJ, Bool.and_eq_true]
      refine ⟨?_, ih h2⟩
      by_cases hc : containsKey (setKey es k v) a = true
      · rcases containsKey_setKey hc with rfl | hc'
        · simp at hk
        · rw [hc'] at ha
          cases ha
      · simpa using (Bool.not_eq_true _).mp hc

theorem nodupKeysJ_strip {es : List (String × JVal)}
    (h : nodupKeysJ es = true) : nodupKeysJ (stripUnsupported es) = true := by
  rw [stripUnsupported]
  generalize unsupportedKeys = ks
  induction ks generalizing es with
  | nil => exact h
  | cons k0 ks ih => exact ih (nodupKeysJ_filter h)

theorem nodupKeysJ_constPhase {n1 : List (String × JVal)}
    (h : nodupKeysJ n1 = true) : nodupKeysJ (constPhase n1) = true := by
  unfold constPhase
  split
  · exact nodupKeysJ_filter (nodupKeysJ_setKey h)
  · exact h

theorem nodupKeysJ_enumPhase {n2 : List (String × JVal)} {m : Option EMap}
    (h : nodupKeysJ n2 = true) : nodupKeysJ (enumPhase n2 m).1 = true := by
  unfold enumPhase
  split
  · exact nodupKeysJ_setKey h
  · exact h

theorem nodupKeysJ_prepNode {es : List (String × JVal)} {m : Option EMap}
    (h : nodupKeysJ es = true) : nodupKeysJ (prepNode es m).1 = true :=
  nodupKeysJ_enumPhase (nodupKeysJ_constPhase (nodupKeysJ_strip h))

theorem mem_setKey_nodup {es : List (String × JVal)} {k : String} {v : JVal}
    {e : String × JVal} (hnd : nodupKeysJ es = true) (h : e ∈ setKey es k v) :
    e = (k, v) ∨ (e ∈ es ∧ e.1 ≠ k) := by
  induction es with
  | nil =>
    left
    simpa [setKey] using h
  | cons e' es ih =>
    obtain ⟨a, b⟩ := e'
    simp only [nodupKeysJ, Bool.and_eq_true] at hnd
    obtain ⟨ha, hnd2⟩ := hnd
    have ha' : containsKey es a = false := by simpa using ha
    by_cases hk : (a == k) = true
    · obtain rfl := beq_iff_eq.mp hk
      simp only [setKey, if_pos (by simp : (a == a) = true), List.mem_cons] at h
      rcases h with h | h
      · exact Or.inl h
      · exact Or.inr ⟨List.mem_cons_of_mem _ h,
          not_containsKey_forall ha' e h⟩
    · simp only [setKey, if_neg hk, List.mem_cons] at h
      have hak : a ≠ k := fun hh => hk (by simp [hh])
      rcases h with h | h
      · exact Or.inr ⟨by simp [h], by rw [h]; exact hak⟩
      · rcases ih hnd2 h with h' | h'
        · exact Or.inl h'
        · exact Or.inr ⟨List.mem_cons_of_mem _ h'.1, h'.2⟩

theorem constPhase_lookup_other {n1 : List (String × JVal)} {k : String}
    (h2 : k ≠ "const") (h3 : k ≠ "enum") :
    List.lookup k (constPhase n1) = List.lookup k n1 := by
  unfold constPhase
  split
  · rw [lookup_removeKey_ne _ _ _ h2, lookup_setKey_ne _ _ _ _ h3]
  · rfl

theorem enumPhase_lookup_other {n2 : List (String × JVal)} {m : Option EMap}
    {k : String} (h3 : k ≠ "enum") :
    List.lookup k (enumPhase n2 m).1 = List.lookup k n2 := by
  unfold enumPhase
  split
  · exact lookup_setKey_ne _ _ _ _ h3
  · rfl

theorem prepNode_lookup_other {es : List (String × JVal)} {m : Option EMap}
    {k : String} (h1 : k ∉ unsupportedKeys) (h2 : k ≠ "const") (h3 : k ≠ "enum") :
    List.lookup k (prepNode es m).1 = List.lookup k es := by
  unfold prepNode
  rw [enumPhase_lookup_other h3, constPhase_lookup_other h2 h3,
    lookup_stripUnsupported h1]

theorem mem_enumPhase {n2 : List (String × JVal)} {m : Option EMap}
    {e : String × JVal} (h : e ∈ (enumPhase n2 m).1) :
    e ∈ n2 ∨ (e.1 = "enum" ∧ ∃ vs : List JVal,
      e.2 = .arr (vs.map sanitizeJ) ∧ ("enum", JVal.arr vs) ∈ n2) := by
  unfold enumPhase at h
  split at h
  · rename_i vs heq
    replace h : e ∈ setKey n2 "enum" (.arr (sanitizeEnumList vs m).1) := h
    rw [sanitizeEnumList_fst] at h
    rcases mem_setKey h with h' | h'
    · right
      refine ⟨by rw [h'], vs, by rw [h'], lookup_mem heq⟩
    · exact Or.inl h'
  · exact Or.inl h

theorem mem_constPhase {n1 : List (String × JVal)} {e : String × JVal}
    (h : e ∈ constPhase n1) :
    e ∈ n1 ∨ (e.1 = "enum" ∧ ∃ c : JVal,
      e.2 = .arr [c] ∧ ("const", c) ∈ n1) := by
  unfold constPhase at h
  split at h
  · rename_i hck
    obtain ⟨h1, _⟩ := mem_removeKey h
    rcases mem_setKey h1 with h2 | h2
    · right
      obtain ⟨c, hc⟩ := Option.isSome_iff_exists.mp hck
      refine ⟨by rw [h2], c, ?_, lookup_mem hc⟩
      rw [h2]
      show JVal.arr [(List.lookup "const" n1).getD .null] = .arr [c]
      rw [hc]
      rfl
    · exact Or.inl h2
  · exact Or.inl h

theorem prepNode_entry_wf {es : List (String × JVal)} {m : Option EMap}
    (hent : wfEntries es = true) {e : String × JVal}
    (he : e ∈ (prepNode es m).1) :
    e.1 ∉ unsupportedKeys ∧
      (e ∈ es ∨ (e.1 = "enum" ∧ scalarish e.2 = true)) := by
  have hw := (wfEntries_forall es).mp hent
  rcases mem_enumPhase he with h1 | ⟨hk, vs, hv, hmem⟩
  · rcases mem_constPhase h1 with h2 | ⟨hk, c, hv, hmem⟩
    · obtain ⟨h3, h4⟩ := mem_stripUnsupported h2
      exact ⟨h4, Or.inl h3⟩
    · obtain ⟨h3, _⟩ := mem_stripUnsupported hmem
      have hc : isScalar c = true := by
        simpa [wfEntryVal] using hw ("const", c) h3
      refine ⟨by rw [hk]; decide, Or.inr ⟨hk, ?_⟩⟩
      rw [hv]
      simp only [scalarish, List.all_eq_true, List.mem_singleton]
      intro x hx
      rw [hx]
      exact hc
  · rcases mem_constPhase hmem with h2 | ⟨_, c, hv2, hmem2⟩
    · obtain ⟨h3, _⟩ := mem_stripUnsupported h2
      have henum := hw ("enum", .arr vs) h3
      have hvs : ∀ x ∈ vs, isScalar x = true := by
        simp only [wfEntryVal, scalarish] at henum
        simp only [if_pos (by rfl : ("enum" == "enum") = true)] at henum
        revert henum
        simp [Bool.and_eq_true, List.all_eq_true]
        intro h _
        exact h
      refine ⟨by rw [hk]; decide, Or.inr ⟨hk, ?_⟩⟩
      rw [hv]
      simp only [scalarish, List.all_eq_true]
      intro x hx
      obtain ⟨y, hy, rfl⟩ := List.mem_map.mp hx
      rw [isScalar_sanitizeJ]
      exact hvs y hy
    · injection hv2 with hveq
      obtain ⟨h3, _⟩ := mem_stripUnsupported hmem2
      have hc : isScalar c = true := by
        simpa [wfEntryVal] using hw ("const", c) h3
      refine ⟨by rw [hk]; decide, Or.inr ⟨hk, ?_⟩⟩
      rw [hv, hveq]
      simp only [scalarish, List.map_cons, List.map_nil, List.all_eq_true,
        List.mem_singleton]
      intro x hx
      rw [hx, isScalar_sanitizeJ]
      exact hc

theorem lookup_of_mem_nodupJ {es : List (String × JVal)} {k : String} {v : JVal}
    (hnd : nodupKeysJ es = true) (hm : (k, v) ∈ es) :
    List.lookup k es = some v := by
  induction es with
  | nil => cases hm
  | cons e rest ih =>
    obtain ⟨a, b⟩ := e
    simp only [nodupKeysJ, Bool.and_eq_true] at hnd
    obtain ⟨ha, hnd2⟩ := hnd
    rw [List.lookup_cons]
    rcases List.mem_cons.mp hm with h | h
    · injection h with h1 h2
      subst h1
      subst h2
      simp
    · by_cases hk : (k == a) = true
      · obtain rfl := beq_iff_eq.mp hk
        rw [mem_containsKey h] at ha
        cases ha
      · simp only [Bool.not_eq_true] at hk
        simp only [hk]
        exact ih hnd2 h

theorem scalarish_of_isScalar {v : JVal} (h : isScalar v = true) :
    scalarish v = true := by
  cases v <;> simp_all [isScalar, scalarish]

theorem entryVal_new {k : String} {v : JVal} (hu : k ∉ unsupportedKeys)
    (hk : k ≠ "properties") (h1 : cleanDeep v = true) (h2 : closedDeep v = true) :
    cleanEntryVal k v = true ∧ closedEntryVal k v = true := by
  have hkb : (k == "properties") = false := beq_eq_false_iff_ne.mpr hk
  have hub : unsupportedKeys.contains k = false := by
    simpa using hu
  constructor
  · simp only [cleanEntryVal, hub, hkb, Bool.not_false, Bool.true_and,
      Bool.false_eq_true, if_false]
    exact h1
  · simp only [closedEntryVal, hkb, Bool.false_eq_true, if_false]
    exact h2

theorem entryVal_props {v : JVal} (h1 : cleanProps v = true)
    (h2 : closedProps v = true) :
    cleanEntryVal "properties" v = true ∧ closedEntryVal "properties" v = true := by
  constructor
  · simp [cleanEntryVal, h1, unsupportedKeys]
  · simp [closedEntryVal, h2]

theorem obj_clean_closed {oes : List (String × JVal)}
    (hok : ∀ e ∈ oes, cleanEntryVal e.1 e.2 = true ∧ closedEntryVal e.1 e.2 = true)
    (hnc : nodeClosed oes = true) :
    cleanDeep (.obj oes) = true ∧ closedDeep (.obj oes) = true := by
  rw [cleanDeep_obj, closedDeep_obj]
  refine ⟨(cleanEntries_forall _).mpr (fun e he => (hok e he).1), ?_⟩
  rw [Bool.and_eq_true]
  exact ⟨hnc, (closedEntries_forall _).mpr (fun e he => (hok e he).2)⟩

theorem nodeClosed_not_object {oes : List (String × JVal)}
    (ht : typeIs oes "object" = false)
    (hp : containsKey oes "properties" = false) : nodeClosed oes = true := by
  simp [nodeClosed, ht, hp]

theorem wfProps_parts {v : JVal} (h : wfProps v = true) :
    ∃ ps, v = JVal.obj ps ∧ nodupKeysJ ps = true ∧ wfPropList ps = true := by
  cases v with
  | obj ps =>
    refine ⟨ps, rfl, ?_⟩
    simpa [wfProps, Bool.and_eq_true] using h
  | str s => simp [wfProps] at h
  | num n => simp [wfProps] at h
  | bool b => simp [wfProps] at h
  | null => simp [wfProps] at h
  | arr xs => simp [wfProps] at h

theorem wfUnion_parts {v : JVal} (h : wfUnion v = true) :
    ∃ xs, v = JVal.arr xs ∧ wfList xs = true := by
  cases v with
  | arr xs =>
    refine ⟨xs, rfl, ?_⟩
    simpa [wfUnion] using h
  | str s => simp [wfUnion] at h
  | num n => simp [wfUnion] at h
  | bool b => simp [wfUnion] at h
  | null => simp [wfUnion] at h
  | obj es => simp [wfUnion] at h

theorem asStrings_map_str (ps : List (String × JVal)) :
    asStrings (ps.map (fun p => JVal.str p.1)) = some (ps.map Prod.fst) := by
  induction ps with
  | nil => rfl
  | cons p ps ih => simp [asStrings, ih]

theorem wfEntry_lookup {es : List (String × JVal)} (hent : wfEntries es = true)
    {k : String} {v : JVal} (h : List.lookup k es = some v) :
    wfEntryVal k v = true :=
  (wfEntries_forall es).mp hent (k, v) (lookup_mem h)

theorem props_none_of_not_truthy {es : List (String × JVal)}
    (hent : wfEntries es = true)
    (h : truthy (getKey es "properties") = false) :
    List.lookup "properties" es = none := by
  cases hl : List.lookup "properties" es with
  | none => rfl
  | some v =>
    have hwv := wfEntry_lookup hent hl
    simp only [wfEntryVal, if_pos (by rfl : ("properties" == "properties") = true)]
      at hwv
    obtain ⟨ps, rfl, _, _⟩ := wfProps_parts hwv
    rw [getKey, hl] at h
    simp [truthy] at h

theorem union_none_of_not_truthy {es : List (String × JVal)} {k : String}
    (hent : wfEntries es = true) (hk : wfEntryVal k = wfUnion)
    (h : truthy (getKey es k) = false) : List.lookup k es = none := by
  cases hl : List.lookup k es with
  | none => rfl
  | some v =>
    have hwv := wfEntry_lookup hent hl
    rw [hk] at hwv
    obtain ⟨xs, rfl, _⟩ := wfUnion_parts hwv
    rw [getKey, hl] at h
    simp [truthy] at h

theorem strictListC_wf {go : JVal → Option EMap → Option (JVal × Option EMap)}
    (hgo : ∀ v m out m', wfSchema v = true → go v m = some (out, m') →
      cleanDeep out = true ∧ closedDeep out = true) :
    ∀ xs m ys m', wfList xs = true → strictListC go xs m = some (ys, m') →
      ∀ y ∈ ys, cleanDeep y = true ∧ closedDeep y = true := by
  intro xs
  induction xs with
  | nil =>
    intro m ys m' hwf h
    simp only [strictListC] at h
    cases h
    simp
  | cons x xs ih =>
    intro m ys m' hwf h
    simp only [wfList, Bool.and_eq_true] at hwf
    cases hx : go x m with
    | none =>
      simp only [strictListC, hx] at h
      exact Option.noConfusion h
    | some r1 =>
      obtain ⟨x', m1⟩ := r1
      cases hrest : strictListC go xs m1 with
      | none =>
        simp only [strictListC, hx, hrest] at h
        exact Option.noConfusion h
      | some r2 =>
        obtain ⟨xs', m2⟩ := r2
        simp only [strictListC, hx, hrest] at h
        cases h
        intro y hy
        rcases List.mem_cons.mp hy with rfl | hy'
        · exact hgo x m y m1 hwf.1 hx
        · exact ih m1 xs' _ hwf.2 hrest y hy'

theorem strictPropsC_wf {go : JVal → Option EMap → Option (JVal × Option EMap)}
    (hgo : ∀ v m out m', wfSchema v = true → go v m = some (out, m') →
      cleanDeep out = true ∧ closedDeep out = true) :
    ∀ ps m ps' m', wfPropList ps = true → strictPropsC go ps m = some (ps', m') →
      ∀ e ∈ ps', cleanDeep e.2 = true ∧ closedDeep e.2 = true := by
  intro ps
  induction ps with
  | nil =>
    intro m ps' m' hwf h
    simp only [strictPropsC] at h
    cases h
    simp
  | cons p ps ih =>
    obtain ⟨k, v⟩ := p
    intro m ps' m' hwf h
    simp only [wfPropList, Bool.and_eq_true] at hwf
    cases hv : go v m with
    | none =>
      simp only [strictPropsC, hv] at h
      exact Option.noConfusion h
    | some r1 =>
      obtain ⟨v', m1⟩ := r1
      cases hrest : strictPropsC go ps m1 with
      | none =>
        simp only [strictPropsC, hv, hrest] at h
        exact Option.noConfusion h
      | some r2 =>
        obtain ⟨ps2, m2⟩ := r2
        simp only [strictPropsC, hv, hrest] at h
        cases h
        intro e he
        rcases List.mem_cons.mp he with rfl | he'
        · exact hgo v m v' m1 hwf.1 hv
        · exact ih m1 ps2 _ hwf.2 hrest e he'

theorem wfEntryVal_scalarish {k : String} {v : JVal}
    (hwv : wfEntryVal k v = true) (hps : k ≠ "properties")
    (hit : k ≠ "items") (hao : k ≠ "anyOf") (hal : k ≠ "allOf")
    (hoo : k ≠ "oneOf") : scalarish v = true := by
  have b1 : (k == "properties") = false := beq_eq_false_iff_ne.mpr hps
  have b2 : (k == "items") = false := beq_eq_false_iff_ne.mpr hit
  have b3 : (k == "anyOf" || k == "allOf" || k == "oneOf") = false := by
    simp [beq_eq_false_iff_ne.mpr hao, beq_eq_false_iff_ne.mpr hal,
      beq_eq_false_iff_ne.mpr hoo]
  simp only [wfEntryVal, b1, b2, b3, Bool.false_eq_true, if_false] at hwv
  by_cases h6 : k = "enum"
  · have b6 : (k == "enum") = true := by simp [h6]
    simp only [b6, if_true, Bool.and_eq_true] at hwv
    exact hwv.1
  · have b6 : (k == "enum") = false := beq_eq_false_iff_ne.mpr h6
    simp only [b6, Bool.false_eq_true, if_false] at hwv
    by_cases h7 : k = "const"
    · have b7 : (k == "const") = true := by simp [h7]
      simp only [b7, if_true] at hwv
      exact scalarish_of_isScalar hwv
    · have b7 : (k == "const") = false := beq_eq_false_iff_ne.mpr h7
      simpa only [b7, Bool.false_eq_true, if_false] using hwv

theorem inherited_entryOk {es : List (String × JVal)} {m : Option EMap}
    (hent : wfEntries es = true) {e : String × JVal} (he : e ∈ (prepNode es m).1)
    (hps : e.1 ≠ "properties")
    (hit : e.1 = "items" → scalarish e.2 = true)
    (hao : e.1 ≠ "anyOf") (hal : e.1 ≠ "allOf") (hoo : e.1 ≠ "oneOf") :
    cleanEntryVal e.1 e.2 = true ∧ closedEntryVal e.1 e.2 = true := by
  obtain ⟨hu, hcase⟩ := prepNode_entry_wf hent he
  have hsc : scalarish e.2 = true := by
    rcases hcase with hces | ⟨_, hs⟩
    · by_cases h2 : e.1 = "items"
      · exact hit h2
      · exact wfEntryVal_scalarish ((wfEntries_forall es).mp hent e hces)
          hps h2 hao hal hoo
    · exact hs
  exact entryVal_new hu hps (scalarish_clean_closed hsc).1
    (scalarish_clean_closed hsc).2

theorem containsKey_of_mem_fst {es : List (String × JVal)} {e : String × JVal}
    (he : e ∈ es) : containsKey es e.1 = true := by
  obtain ⟨k, v⟩ := e
  exact mem_containsKey he

theorem prepNode_mem_es {es : List (String × JVal)} {m : Option EMap}
    {e : String × JVal} (hent : wfEntries es = true)
    (he : e ∈ (prepNode es m).1) (hne : e.1 ≠ "enum") : e ∈ es := by
  rcases (prepNode_entry_wf hent he).2 with h | ⟨hk, _⟩
  · exact h
  · exact absurd hk hne

theorem prepNode_absent_key {es : List (String × JVal)} {m : Option EMap}
    {e : String × JVal} (hent : wfEntries es = true)
    (he : e ∈ (prepNode es m).1) {k : String} (hke : k ≠ "enum")
    (hnone : List.lookup k es = none) : e.1 ≠ k := by
  intro hk
  have hes := prepNode_mem_es hent he (by rw [hk]; exact hke)
  have hck := containsKey_of_mem_fst hes
  rw [hk, containsKey, hnone] at hck
  simp at hck

theorem prepNode_entry_safe {es : List (String × JVal)} {m : Option EMap}
    (hent : wfEntries es = true)
    (hpnone : List.lookup "properties" es = none)
    (hanone : List.lookup "anyOf" es = none)
    (halnone : List.lookup "allOf" es = none)
    (honone : List.lookup "oneOf" es = none)
    {e : String × JVal} (he : e ∈ (prepNode es m).1)
    (hit : e.1 = "items" → scalarish e.2 = true) :
    cleanEntryVal e.1 e.2 = true ∧ closedEntryVal e.1 e.2 = true := by
  have habsent : ∀ k : String, k ≠ "enum" → List.lookup k es = none → e.1 ≠ k := by
    intro k hke hnone hk
    have hes := prepNode_mem_es hent he (by rw [hk]; exact hke)
    have hck := containsKey_of_mem_fst hes
    rw [hk, containsKey, hnone] at hck
    simp at hck
  exact inherited_entryOk hent he (habsent _ (by decide) hpnone) hit
    (habsent _ (by decide) hanone) (habsent _ (by decide) halnone)
    (habsent _ (by decide) honone)

theorem prepNode_entry_safe_items {es : List (String × JVal)} {m : Option EMap}
    (hnd : nodupKeysJ es = true) (hent : wfEntries es = true)
    (hpnone : List.lookup "properties" es = none)
    (hanone : List.lookup "anyOf" es = none)
    (halnone : List.lookup "allOf" es = none)
    (honone : List.lookup "oneOf" es = none)
    (hitems : ∀ v, List.lookup "items" es = some v → isScalar v = true)
    {e : String × JVal} (he : e ∈ (prepNode es m).1) :
    cleanEntryVal e.1 e.2 = true ∧ closedEntryVal e.1 e.2 = true := by
  apply prepNode_entry_safe hent hpnone hanone halnone honone he
  intro hk
  have hes := prepNode_mem_es hent he (by rw [hk]; decide)
  obtain ⟨k, v⟩ := e
  have hk2 : k = "items" := hk
  have hl := lookup_of_mem_nodupJ hnd hes
  rw [hk2] at hl
  exact scalarish_of_isScalar (hitems v hl)

theorem typeIs_congr {a b : List (String × JVal)} {t : String}
    (h : List.lookup "type" a = List.lookup "type" b) : typeIs a t = typeIs b t := by
  unfold typeIs
  rw [h]

theorem prepNode_type (es : List (String × JVal)) (m : Option EMap) :
    List.lookup "type" (prepNode es m).1 = List.lookup "type" es :=
  prepNode_lookup_other (by decide) (by decide) (by decide)

theorem prepNode_properties (es : List (String × JVal)) (m : Option EMap) :
    List.lookup "properties" (prepNode es m).1 = List.lookup "properties" es :=
  prepNode_lookup_other (by decide) (by decide) (by decide)

theorem leaf_clean_closed {es : List (String × JVal)} {m : Option EMap}
    (hnd : nodupKeysJ es = true) (hent : wfEntries es = true)
    (htobj : typeIs es "object" = false)
    (hpnone : List.lookup "properties" es = none)
    (hanone : List.lookup "anyOf" es = none)
    (halnone : List.lookup "allOf" es = none)
    (honone : List.lookup "oneOf" es = none)
    (hitems : ∀ v, List.lookup "items" es = some v → isScalar v = true) :
    cleanDeep (.obj (prepNode es m).1) = true ∧
      closedDeep (.obj (prepNode es m).1) = true := by
  apply obj_clean_closed
  · intro e he
    exact prepNode_entry_safe_items hnd hent hpnone hanone halnone honone hitems he
  · apply nodeClosed_not_object
    · rw [typeIs_congr (prepNode_type es m)]
      exact htobj
    · rw [containsKey, prepNode_properties es m, hpnone]
      rfl

theorem setKey_clean_closed {es : List (String × JVal)} {m : Option EMap}
    {kk : String} {w : JVal}
    (hnd : nodupKeysJ es = true) (hent : wfEntries es = true)
    (htobj : typeIs es "object" = false)
    (hku : kk ∉ unsupportedKeys) (hkp : kk ≠ "properties") (hkt : kk ≠ "type")
    (hpnone : List.lookup "properties" es = none)
    (habs : ∀ k0 : String, k0 ∈ (["items", "anyOf", "allOf", "oneOf"] : List String) →
      k0 = kk ∨ List.lookup k0 es = none)
    (hw1 : cleanDeep w = true) (hw2 : closedDeep w = true) :
    cleanDeep (.obj (setKey (prepNode es m).1 kk w)) = true ∧
      closedDeep (.obj (setKey (prepNode es m).1 kk w)) = true := by
  apply obj_clean_closed
  · intro e he
    rcases mem_setKey_nodup (nodupKeysJ_prepNode hnd) he with rfl | ⟨he', hne⟩
    · exact entryVal_new hku hkp hw1 hw2
    · have hkey : ∀ k0 : String,
          k0 ∈ (["items", "anyOf", "allOf", "oneOf"] : List String) → e.1 ≠ k0 := by
        intro k0 hk0
        rcases habs k0 hk0 with rfl | hnone
        · exact hne
        · have hke : k0 ≠ "enum" := by
            intro hcon
            rw [hcon] at hk0
            exact absurd hk0 (by decide)
          exact prepNode_absent_key hent he' hke hnone
      refine inherited_entryOk hent he'
        (prepNode_absent_key hent he' (by decide) hpnone)
        (fun hk => absurd hk (hkey "items" (by decide)))
        (hkey "anyOf" (by decide)) (hkey "allOf" (by decide))
        (hkey "oneOf" (by decide))
  · apply nodeClosed_not_object
    · have h1 : List.lookup "type" (setKey (prepNode es m).1 kk w) =
          List.lookup "type" (prepNode es m).1 :=
        lookup_setKey_ne _ _ _ _ (fun h => hkt h.symm)
      rw [typeIs_congr (h1.trans (prepNode_type es m))]
      exact htobj
    · rw [containsKey,
        lookup_setKey_ne _ _ _ _ (fun h => hkp h.symm),
        prepNode_properties es m, hpnone]
      rfl

theorem lookup_none_of_not_containsKey {es : List (String × JVal)} {k : String}
    (h : containsKey es k = false) : List.lookup k es = none := by
  cases hl : List.lookup k es with
  | none => rfl
  | some v =>
    rw [containsKey, hl] at h
    simp at h

theorem containsKey_of_truthy {es : List (String × JVal)} {k : String}
    (h : truthy (getKey es k) = true) : containsKey es k = true := by
  cases hl : List.lookup k es with
  | none =>
    rw [getKey, hl] at h
    simp [truthy] at h
  | some v =>
    rw [containsKey, hl]
    rfl

theorem exclusive_object {es : List (String × JVal)}
    (hex : exclusiveShape es = true)
    (h : typeIs es "object" = true ∨ containsKey es "properties" = true) :
    containsKey es "items" = false ∧ containsKey es "anyOf" = false ∧
      containsKey es "allOf" = false ∧ containsKey es "oneOf" = false := by
  rw [exclusiveShape] at hex
  rcases h with h | h
  · rw [h] at hex
    simp only [Bool.true_or, if_true, Bool.not_or, Bool.and_eq_true,
      Bool.not_eq_true'] at hex
    exact ⟨hex.1.1.1, hex.1.1.2, hex.1.2, hex.2⟩
  · rw [h] at hex
    simp only [Bool.or_true, if_true, Bool.not_or, Bool.and_eq_true,
      Bool.not_eq_true'] at hex
    exact ⟨hex.1.1.1, hex.1.1.2, hex.1.2, hex.2⟩

theorem exclusive_array {es : List (String × JVal)}
    (hex : exclusiveShape es = true)
    (hto : typeIs es "object" = false) (hcp : containsKey es "properties" = false)
    (h : typeIs es "array" = true ∨ containsKey es "items" = true) :
    containsKey es "anyOf" = false ∧ containsKey es "allOf" = false ∧
      containsKey es "oneOf" = false := by
  rw [exclusiveShape, hto, hcp] at hex
  simp only [Bool.or_self, Bool.false_eq_true, if_false] at hex
  rcases h with h | h
  · rw [h] at hex
    simp only [Bool.true_or, if_true, Bool.not_or, Bool.and_eq_true,
      Bool.not_eq_true'] at hex
    exact ⟨hex.1.1, hex.1.2, hex.2⟩
  · rw [h] at hex
    simp only [Bool.or_true, if_true, Bool.not_or, Bool.and_eq_true,
      Bool.not_eq_true'] at hex
    exact ⟨hex.1.1, hex.1.2, hex.2⟩

theorem exclusive_union_absent {es : List (String × JVal)}
    (hex : exclusiveShape es = true)
    (hto : typeIs es "object" = false) (hcp : containsKey es "properties" = false)
    (hu : containsKey es "anyOf" = true ∨ containsKey es "allOf" = true ∨
      containsKey es "oneOf" = true) :
    containsKey es "items" = false := by
  cases hci : containsKey es "items" with
  | false => rfl
  | true =>
    have := exclusive_array hex hto hcp (Or.inr hci)

    rcases hu with h | h | h
    · rw [h] at this; exact this.1
    · rw [h] at this; exact this.2.1
    · rw [h] at this; exact this.2.2

theorem exclusive_after_anyOf {es : List (String × JVal)}
    (hex : exclusiveShape es = true)
    (hto : typeIs es "object" = false) (hcp : containsKey es "properties" = false)
    (hta : typeIs es "array" = false) (hci : containsKey es "items" = false)
    (ha : containsKey es "anyOf" = true) :
    containsKey es "allOf" = false ∧ containsKey es "oneOf" = false := by
  rw [exclusiveShape, hto, hcp, hta, hci, ha] at hex
  simp only [Bool.or_self, Bool.false_eq_true, if_false, if_true, Bool.not_or,
    Bool.and_eq_true, Bool.not_eq_true'] at hex
  exact hex

theorem exclusive_after_allOf {es : List (String × JVal)}
    (hex : exclusiveShape es = true)
    (hto : typeIs es "object" = false) (hcp : containsKey es "properties" = false)
    (hta : typeIs es "array" = false) (hci : containsKey es "items" = false)
    (hna : containsKey es "anyOf" = false) (hal : containsKey es "allOf" = true) :
    containsKey es "oneOf" = false := by
  rw [exclusiveShape, hto, hcp, hta, hci, hna, hal] at hex
  simp only [Bool.or_self, Bool.false_eq_true, if_false, if_true,
    Bool.not_eq_true'] at hex
  exact hex

theorem cleanProps_obj (ps : List (String × JVal)) :
    cleanProps (.obj ps) = cleanPropList ps := by
  simp [cleanProps]

theorem closedProps_obj (ps : List (String × JVal)) :
    closedProps (.obj ps) = closedPropList ps := by
  simp [closedProps]

theorem nodeClosed_object {oes : List (String × JVal)}
    (hap : List.lookup "additionalProperties" oes = some (.bool false))
    (hreq : requiredMatches oes = true) : nodeClosed oes = true := by
  unfold nodeClosed
  split
  · rw [hap, hreq]
    rfl
  · rfl

theorem requiredMatches_of {oes ps' : List (String × JVal)} {rs : List JVal}
    (hp : List.lookup "properties" oes = some (.obj ps'))
    (hr : List.lookup "required" oes = some (.arr rs))
    (ha : asStrings rs = some (List.map Prod.fst ps')) :
    requiredMatches oes = true := by
  unfold requiredMatches
  rw [hp, hr]
  show (asStrings rs == some (List.map Prod.fst ps')) = true
  rw [ha]
  simp

theorem requiredMatches_noprops {oes : List (String × JVal)}
    (hp : List.lookup "properties" oes = none) : requiredMatches oes = true := by
  unfold requiredMatches
  rw [hp]

theorem object_noprops_clean_closed {es : List (String × JVal)} {m : Option EMap}
    (hnd : nodupKeysJ es = true) (hent : wfEntries es = true)
    (hpnone : List.lookup "properties" es = none)
    (hinone : List.lookup "items" es = none)
    (hanone : List.lookup "anyOf" es = none)
    (halnone : List.lookup "allOf" es = none)
    (honone : List.lookup "oneOf" es = none) :
    cleanDeep (.obj (setKey (prepNode es m).1 "additionalProperties"
        (.bool false))) = true ∧
      closedDeep (.obj (setKey (prepNode es m).1 "additionalProperties"
        (.bool false))) = true := by
  apply obj_clean_closed
  · intro e he
    rcases mem_setKey_nodup (nodupKeysJ_prepNode hnd) he with rfl | ⟨he', hne⟩
    · have hsc : cleanDeep (JVal.bool false) = true ∧
          closedDeep (JVal.bool false) = true := scalar_clean_closed rfl
      exact entryVal_new (by decide) (by decide) hsc.1 hsc.2
    · exact prepNode_entry_safe_items hnd hent hpnone hanone halnone honone
        (fun v hv => by rw [hinone] at hv; exact Option.noConfusion hv) he'
  · apply nodeClosed_object
    · exact lookup_setKey_self _ _ _
    · apply requiredMatches_noprops
      rw [lookup_setKey_ne _ _ _ _ (by decide), prepNode_properties es m, hpnone]

theorem object_props_clean_closed {es ps newProps : List (String × JVal)}
    {m : Option EMap}
    (hnd : nodupKeysJ es = true) (hent : wfEntries es = true)
    (hinone : List.lookup "items" es = none)
    (hanone : List.lookup "anyOf" es = none)
    (halnone : List.lookup "allOf" es = none)
    (honone : List.lookup "oneOf" es = none)
    (hkeys : newProps.map Prod.fst = ps.map Prod.fst)
    (hvals : ∀ e ∈ newProps, cleanDeep e.2 = true ∧ closedDeep e.2 = true) :
    cleanDeep (.obj (setKey (setKey (setKey (prepNode es m).1
        "additionalProperties" (.bool false)) "required"
        (.arr (ps.map (fun p => JVal.str p.1)))) "properties"
        (.obj newProps))) = true ∧
      closedDeep (.obj (setKey (setKey (setKey (prepNode es m).1
        "additionalProperties" (.bool false)) "required"
        (.arr (ps.map (fun p => JVal.str p.1)))) "properties"
        (.obj newProps))) = true := by
  have hnd0 : nodupKeysJ (prepNode es m).1 = true := nodupKeysJ_prepNode hnd
  have hnd1 : nodupKeysJ (setKey (prepNode es m).1 "additionalProperties"
      (.bool false)) = true := nodupKeysJ_setKey hnd0
  have hnd2 : nodupKeysJ (setKey (setKey (prepNode es m).1 "additionalProperties"
      (.bool false)) "required" (.arr (ps.map (fun p => JVal.str p.1)))) = true :=
    nodupKeysJ_setKey hnd1
  apply obj_clean_closed
  · intro e he
    rcases mem_setKey_nodup hnd2 he with rfl | ⟨he2, hne2⟩
    · apply entryVal_props
      · rw [cleanProps_obj]
        exact (cleanPropList_forall _).mpr (fun e2 he2 => (hvals e2 he2).1)
      · rw [closedProps_obj]
        exact (closedPropList_forall _).mpr (fun e2 he2 => (hvals e2 he2).2)
    · rcases mem_setKey_nodup hnd1 he2 with rfl | ⟨he1, hne1⟩
      · refine entryVal_new ?_ ?_ ?_ ?_
        · show "required" ∉ unsupportedKeys
          decide
        · show "required" ≠ "properties"
          decide
        · rw [cleanDeep_arr]
          refine (cleanList_forall _).mpr (fun y hy => ?_)
          obtain ⟨p, hp, rfl⟩ := List.mem_map.mp hy
          have hsc : cleanDeep (JVal.str p.1) = true ∧
              closedDeep (JVal.str p.1) = true := scalar_clean_closed rfl
          exact hsc.1
        · rw [closedDeep_arr]
          refine (closedList_forall _).mpr (fun y hy => ?_)
          obtain ⟨p, hp, rfl⟩ := List.mem_map.mp hy
          have hsc : cleanDeep (JVal.str p.1) = true ∧
              closedDeep (JVal.str p.1) = true := scalar_clean_closed rfl
          exact hsc.2
      · rcases mem_setKey_nodup hnd0 he1 with rfl | ⟨he0, hne0⟩
        · have hsc : cleanDeep (JVal.bool false) = true ∧
              closedDeep (JVal.bool false) = true := scalar_clean_closed rfl
          exact entryVal_new (by decide) (by decide) hsc.1 hsc.2
        · exact inherited_entryOk hent he0 hne2
            (fun hk => absurd hk (prepNode_absent_key hent he0 (by decide) hinone))
            (prepNode_absent_key hent he0 (by decide) hanone)
            (prepNode_absent_key hent he0 (by decide) halnone)
            (prepNode_absent_key hent he0 (by decide) honone)
  · apply nodeClosed_object
    · rw [lookup_setKey_ne _ _ _ _ (by decide),
        lookup_setKey_ne _ _ _ _ (by decide)]
      exact lookup_setKey_self _ _ _
    · have hr : List.lookup "required" (setKey (setKey (setKey (prepNode es m).1
          "additionalProperties" (.bool false)) "required"
          (.arr (ps.map (fun p => JVal.str p.1)))) "properties"
          (.obj newProps)) =
          some (.arr (ps.map (fun p => JVal.str p.1))) := by
        rw [lookup_setKey_ne _ _ _ _ (by decide)]
        exact lookup_setKey_self _ _ _
      have ha : asStrings (ps.map (fun p => JVal.str p.1)) =
          some (List.map Prod.fst newProps) := by
        rw [hkeys]
        exact asStrings_map_str ps
      exact requiredMatches_of (lookup_setKey_self _ _ _) hr ha

theorem unionStep_wf {go : JVal → Option EMap → Option (JVal × Option EMap)}
    {es : List (String × JVal)} {m : Option EMap} {m1 : Option EMap}
    {out : JVal} {m' : Option EMap} {k : String}
    (hgo : ∀ v mv outv m'v, wfSchema v = true → go v mv = some (outv, m'v) →
      cleanDeep outv = true ∧ closedDeep outv = true)
    (hnd : nodupKeysJ es = true) (hent : wfEntries es = true)
    (htobj : typeIs es "object" = false)
    (hku : k ∉ unsupportedKeys) (hkp : k ≠ "properties") (hkt : k ≠ "type")
    (hkwf : wfEntryVal k = wfUnion)
    (hpnone : List.lookup "properties" es = none)
    (habs : ∀ k0 : String, k0 ∈ (["items", "anyOf", "allOf", "oneOf"] : List String) →
      k0 = k ∨ List.lookup k0 es = none)
    (h : unionStep go es (prepNode es m).1 m1 k = some (out, m')) :
    cleanDeep out = true ∧ closedDeep out = true := by
  unfold unionStep at h
  split at h
  · rename_i xs heq
    have hwl : wfList xs = true := by
      have hwv := wfEntry_lookup hent heq
      rw [hkwf] at hwv
      simpa [wfUnion] using hwv
    cases hl : strictListC go xs m1 with
    | none =>
      rw [hl] at h
      exact Option.noConfusion h
    | some r =>
      obtain ⟨xs', m2⟩ := r
      rw [hl] at h
      cases h
      have hmem := strictListC_wf hgo xs m1 xs' _ hwl hl
      have hcl : cleanDeep (.arr xs') = true := by
        rw [cleanDeep_arr]
        exact (cleanList_forall _).mpr (fun y hy => (hmem y hy).1)
      have hcl2 : closedDeep (.arr xs') = true := by
        rw [closedDeep_arr]
        exact (closedList_forall _).mpr (fun y hy => (hmem y hy).2)
      exact setKey_clean_closed hnd hent htobj hku hkp hkt hpnone habs hcl hcl2
  · exact Option.noConfusion h

theorem wfEntryVal_properties : wfEntryVal "properties" = wfProps := by
  funext v
  have h1 : (("properties" : String) == "properties") = true := by decide
  simp only [wfEntryVal, h1, if_true]

theorem wfEntryVal_items : wfEntryVal "items" = wfSchema := by
  funext v
  have h1 : (("items" : String) == "properties") = false := by decide
  have h2 : (("items" : String) == "items") = true := by decide
  simp only [wfEntryVal, h1, h2, Bool.false_eq_true, if_false, if_true]

theorem wfEntryVal_anyOf : wfEntryVal "anyOf" = wfUnion := by
  funext v
  have h1 : (("anyOf" : String) == "properties") = false := by decide
  have h2 : (("anyOf" : String) == "items") = false := by decide
  have h3 : (("anyOf" : String) == "anyOf" || ("anyOf" : String) == "allOf"
      || ("anyOf" : String) == "oneOf") = true := by decide
  simp only [wfEntryVal, h1, h2, h3, Bool.false_eq_true, if_false, if_true]

theorem wfEntryVal_allOf : wfEntryVal "allOf" = wfUnion := by
  funext v
  have h1 : (("allOf" : String) == "properties") = false := by decide
  have h2 : (("allOf" : String) == "items") = false := by decide
  have h3 : (("allOf" : String) == "anyOf" || ("allOf" : String) == "allOf"
      || ("allOf" : String) == "oneOf") = true := by decide
  simp only [wfEntryVal, h1, h2, h3, Bool.false_eq_true, if_false, if_true]

theorem wfEntryVal_oneOf : wfEntryVal "oneOf" = wfUnion := by
  funext v
  have h1 : (("oneOf" : String) == "properties") = false := by decide
  have h2 : (("oneOf" : String) == "items") = false := by decide
  have h3 : (("oneOf" : String) == "anyOf" || ("oneOf" : String) == "allOf"
      || ("oneOf" : String) == "oneOf") = true := by decide
  simp only [wfEntryVal, h1, h2, h3, Bool.false_eq_true, if_false, if_true]

theorem strictGo_wf : ∀ fuel s m out m', wfSchema s = true →
    strictGo fuel s m = some (out, m') →
    cleanDeep out = true ∧ closedDeep out = true := by
  intro fuel
  induction fuel with
  | zero =>
    intro s m out m' hwf h
    rw [strictGo_zero] at h
    exact Option.noConfusion h
  | succ fuel ih =>
    intro s m out m' hwf h
    cases s with
    | str s0 =>
      rw [strictGo_succ_str] at h
      cases h
      exact scalar_clean_closed rfl
    | num n =>
      rw [strictGo_succ_num] at h
      cases h
      exact scalar_clean_closed rfl
    | bool b =>
      rw [strictGo_succ_bool] at h
      cases h
      exact scalar_clean_closed rfl
    | null =>
      rw [strictGo_succ_null] at h
      cases h
      exact scalar_clean_closed rfl
    | arr xs => simp [wfSchema] at hwf
    | obj es =>
      have hw := hwf
      simp only [wfSchema, Bool.and_eq_true] at hw
      obtain ⟨⟨hnd, hex⟩, hent⟩ := hw
      rw [strictGo_succ_obj, spreadEntries_obj] at h
      have hgo : ∀ v mv outv m'v, wfSchema v = true →
          strictGo fuel v mv = some (outv, m'v) →
          cleanDeep outv = true ∧ closedDeep outv = true :=
        fun v mv outv m'v hwv hh => ih v mv outv m'v hwv hh
      unfold branchStep at h
      split at h
      · rename_i hcond
        have hobj : typeIs es "object" = true ∨ containsKey es "properties" = true := by
          simp only [Bool.or_eq_true] at hcond
          rcases hcond with h1 | h1
          · exact Or.inl h1
          · exact Or.inr (containsKey_of_truthy h1)
        obtain ⟨hci, hca, hcal, hcoo⟩ := exclusive_object hex hobj
        have hinone := lookup_none_of_not_containsKey hci
        have hanone := lookup_none_of_not_containsKey hca
        have halnone := lookup_none_of_not_containsKey hcal
        have honone := lookup_none_of_not_containsKey hcoo
        split at h
        · rename_i props heq
          have hwv := wfEntry_lookup hent heq
          rw [wfEntryVal_properties] at hwv
          obtain ⟨ps, rfl, hndps, hwfpl⟩ := wfProps_parts hwv
          split at h
          · rw [show propPairs (JVal.obj ps) = ps from rfl] at h
            cases hp : strictPropsC (fun v mm => strictGo fuel v mm) ps
                (prepNode es m).2 with
            | none =>
              rw [hp] at h
              exact Option.noConfusion h
            | some r =>
              obtain ⟨np, m2⟩ := r
              rw [hp] at h
              cases h
              exact object_props_clean_closed hnd hent hinone hanone halnone honone
                (strictPropsC_keys ps (prepNode es m).2 np _ hp)
                (strictPropsC_wf hgo ps (prepNode es m).2 np _ hwfpl hp)
          · rename_i htr
            exact absurd rfl htr
        · rename_i heq
          cases h
          exact object_noprops_clean_closed hnd hent heq hinone hanone halnone honone
      · rename_i hnobj
        simp only [Bool.or_eq_true, not_or, Bool.not_eq_true] at hnobj
        obtain ⟨htobj, htprop⟩ := hnobj
        have hpnone := props_none_of_not_truthy hent htprop
        have hcp : containsKey es "properties" = false := by
          rw [containsKey, hpnone]
          rfl
        split at h
        · rename_i hcond2
          have harr : typeIs es "array" = true ∨ containsKey es "items" = true := by
            simp only [Bool.or_eq_true] at hcond2
            rcases hcond2 with h1 | h1
            · exact Or.inl h1
            · exact Or.inr (containsKey_of_truthy h1)
          obtain ⟨hca, hcal, hcoo⟩ := exclusive_array hex htobj hcp harr
          have hanone := lookup_none_of_not_containsKey hca
          have halnone := lookup_none_of_not_containsKey hcal
          have honone := lookup_none_of_not_containsKey hcoo
          split at h
          · rename_i items heq
            split at h
            · have hb : (fun v mm => strictGo fuel v mm) items (prepNode es m).2 =
                  strictGo fuel items (prepNode es m).2 := rfl
              rw [hb] at h
              cases hi : strictGo fuel items (prepNode es m).2 with
              | none =>
                rw [hi] at h
                exact Option.noConfusion h
              | some r =>
                obtain ⟨items', m2⟩ := r
                rw [hi] at h
                cases h
                have hwit : wfSchema items = true := by
                  have hwv := wfEntry_lookup hent heq
                  rw [wfEntryVal_items] at hwv
                  exact hwv
                have hcc := ih items (prepNode es m).2 items' _ hwit hi
                refine setKey_clean_closed hnd hent htobj (by decide) (by decide)
                  (by decide) hpnone ?_ hcc.1 hcc.2
                intro k0 hk0
                simp only [List.mem_cons, List.not_mem_nil, or_false] at hk0
                rcases hk0 with rfl | rfl | rfl | rfl
                · exact Or.inl rfl
                · exact Or.inr hanone
                · exact Or.inr halnone
                · exact Or.inr honone
            · rename_i htr
              simp only [Bool.not_eq_true] at htr
              cases h
              refine leaf_clean_closed hnd hent htobj hpnone hanone halnone honone ?_
              intro v hv
              rw [heq] at hv
              cases hv
              have hwv := wfEntry_lookup hent heq
              rw [wfEntryVal_items] at hwv
              exact falsy_wf_scalar hwv htr
          · rename_i heq
            cases h
            refine leaf_clean_closed hnd hent htobj hpnone hanone halnone honone ?_
            intro v hv
            rw [heq] at hv
            exact Option.noConfusion hv
        · rename_i hnarr
          simp only [Bool.or_eq_true, not_or, Bool.not_eq_true] at hnarr
          obtain ⟨htarr, htitems⟩ := hnarr
          split at h
          · rename_i hat
            have hcany : containsKey es "anyOf" = true := containsKey_of_truthy hat
            have hci : containsKey es "items" = false :=
              exclusive_union_absent hex htobj hcp (Or.inl hcany)
            obtain ⟨hcal, hcoo⟩ :=
              exclusive_after_anyOf hex htobj hcp htarr hci hcany
            refine unionStep_wf hgo hnd hent htobj (by decide) (by decide)
              (by decide) wfEntryVal_anyOf hpnone ?_ h
            intro k0 hk0
            simp only [List.mem_cons, List.not_mem_nil, or_false] at hk0
            rcases hk0 with rfl | rfl | rfl | rfl
            · exact Or.inr (lookup_none_of_not_containsKey hci)
            · exact Or.inl rfl
            · exact Or.inr (lookup_none_of_not_containsKey hcal)
            · exact Or.inr (lookup_none_of_not_containsKey hcoo)
          · rename_i hnat
            simp only [Bool.not_eq_true] at hnat
            have hanone := union_none_of_not_truthy hent wfEntryVal_anyOf hnat
            have hcna : containsKey es "anyOf" = false := by
              rw [containsKey, hanone]
              rfl
            split at h
            · rename_i hal
              have hcall : containsKey es "allOf" = true := containsKey_of_truthy hal
              have hci : containsKey es "items" = false :=
                exclusive_union_absent hex htobj hcp (Or.inr (Or.inl hcall))
              have hcoo :=
                exclusive_after_allOf hex htobj hcp htarr hci hcna hcall
              refine unionStep_wf hgo hnd hent htobj (by decide) (by decide)
                (by decide) wfEntryVal_allOf hpnone ?_ h
              intro k0 hk0
              simp only [List.mem_cons, List.not_mem_nil, or_false] at hk0
              rcases hk0 with rfl | rfl | rfl | rfl
              · exact Or.inr (lookup_none_of_not_containsKey hci)
              · exact Or.inr hanone
              · exact Or.inl rfl
              · exact Or.inr (lookup_none_of_not_containsKey hcoo)
            · rename_i hnal
              simp only [Bool.not_eq_true] at hnal
              have halnone := union_none_of_not_truthy hent wfEntryVal_allOf hnal
              split at h
              · rename_i hoo
                have hcone : containsKey es "oneOf" = true := containsKey_of_truthy hoo
                have hci : containsKey es "items" = false :=
                  exclusive_union_absent hex htobj hcp (Or.inr (Or.inr hcone))
                refine unionStep_wf hgo hnd hent htobj (by decide) (by decide)
                  (by decide) wfEntryVal_oneOf hpnone ?_ h
                intro k0 hk0
                simp only [List.mem_cons, List.not_mem_nil, or_false] at hk0
                rcases hk0 with rfl | rfl | rfl | rfl
                · exact Or.inr (lookup_none_of_not_containsKey hci)
                · exact Or.inr hanone
                · exact Or.inr halnone
                · exact Or.inl rfl
              · rename_i hnoo
                simp only [Bool.not_eq_true] at hnoo
                have honone := union_none_of_not_truthy hent wfEntryVal_oneOf hnoo
                cases h
                refine leaf_clean_closed hnd hent htobj hpnone hanone halnone honone ?_
                intro v hv
                have hwv := wfEntry_lookup hent hv
                rw [wfEntryVal_items] at hwv
                have htv : truthy v = false := by
                  rw [getKey, hv] at htitems
                  exact htitems
                exact falsy_wf_scalar hwv htv

/-- C2 (corrected): for every well-shaped input schema (unique keys, mutually
exclusive branch shapes, nested schemas only in the positions the strictifier
recurses into) on which `makeSchemaStrict` succeeds, every object-shaped
schema node anywhere in the output has `additionalProperties` literally
`false` and, when it has a `properties` map, a `required` list equal to
exactly the ordered keys of that map.  As stated over arbitrary inputs the
claim fails: a schema whose object branch shadows an `items` subtree leaves
that subtree unvisited (see the counterexample). -/
theorem C2_structural_closure {s : JVal} {m : Option EMap} {out : JVal}
    {m' : Option EMap} (hwf : wfSchema s = true)
    (h : makeSchemaStrict s m = some (out, m')) : closedDeep out = true :=
  (strictGo_wf (jsize s + 1) s m out m' hwf h).2

/-- Witness for C2: the well-shaped schema
`{type:"object", properties:{a:{type:"string"}}}` strictifies to a tree whose
every object-shaped node is closed. -/
theorem C2_structural_closure_witness :
    wfSchema (JVal.obj [("type", JVal.str "object"),
      ("properties", JVal.obj [("a", JVal.obj [("type", JVal.str "string")])])])
      = true ∧
    makeSchemaStrict (JVal.obj [("type", JVal.str "object"),
      ("properties", JVal.obj [("a", JVal.obj [("type", JVal.str "string")])])])
      (some []) =
      some (JVal.obj
        [("type", JVal.str "object"),
         ("properties", JVal.obj [("a", JVal.obj [("type", JVal.str "string")])]),
         ("additionalProperties", JVal.bool false),
         ("required", JVal.arr [JVal.str "a"])], some []) ∧
    closedDeep (JVal.obj
      [("type", JVal.str "object"),
       ("properties", JVal.obj [("a", JVal.obj [("type", JVal.str "string")])]),
       ("additionalProperties", JVal.bool false),
       ("required", JVal.arr [JVal.str "a"])]) = true := by
  have hwf : wfSchema (JVal.obj [("type", JVal.str "object"),
      ("properties", JVal.obj [("a", JVal.obj [("type", JVal.str "string")])])])
      = true := by
    simp [wfSchema, wfEntries, wfEntryVal, wfProps, wfPropList, wfUnion, wfList,
      scalarish, isScalar, nodupKeysJ, exclusiveShape, containsKey, typeIs,
      List.lookup]
  have heq : makeSchemaStrict (JVal.obj [("type", JVal.str "object"),
      ("properties", JVal.obj [("a", JVal.obj [("type", JVal.str "string")])])])
      (some []) =
      some (JVal.obj
        [("type", JVal.str "object"),
         ("properties", JVal.obj [("a", JVal.obj [("type", JVal.str "string")])]),
         ("additionalProperties", JVal.bool false),
         ("required", JVal.arr [JVal.str "a"])], some []) := rfl
  exact ⟨hwf, heq, C2_structural_closure hwf heq⟩

/-- Counterexample to C2 as stated: strictifying
`{type:"object", items:{type:"object"}}` takes the object branch, never
visits the `items` subtree, and returns an output whose inner object-shaped
node has no `additionalProperties`. -/
theorem C2_closure_counterexample :
    makeSchemaStrict (JVal.obj [("type", JVal.str "object"),
        ("items", JVal.obj [("type", JVal.str "object")])]) none =
      some (JVal.obj
        [("type", JVal.str "object"),
         ("items", JVal.obj [("type", JVal.str "object")]),
         ("additionalProperties", JVal.bool false)], none) ∧
    closedDeep (JVal.obj
        [("type", JVal.str "object"),
         ("items", JVal.obj [("type", JVal.str "object")]),
         ("additionalProperties", JVal.bool false)]) = false := by
  constructor
  · rfl
  · simp [closedDeep, closedEntries, closedEntryVal, closedProps, closedList,
      nodeClosed, requiredMatches, typeIs, containsKey, List.lookup]

/-- C3 (corrected): for every well-shaped input schema (unique keys, mutually
exclusive branch shapes, nested schemas only in the positions the strictifier
recurses into) on which `makeSchemaStrict` succeeds, none of the unsupported
keywords (`$schema`, `default`, `format`, `pattern`, `minLength`, `maxLength`,
`minimum`, `maximum`, `exclusiveMinimum`, `exclusiveMaximum`, `multipleOf`,
`minItems`, `maxItems`, `uniqueItems`, `minProperties`, `maxProperties`,
`patternProperties`, `not`, `if`, `then`, `else`, `examples`) occurs as a key
of any schema node at any depth of the output.  As stated over arbitrary
inputs the claim fails: a subtree shadowed by an earlier branch is never
visited and keeps its unsupported keywords (see the counterexample). -/
theorem C3_unsupported_stripped {s : JVal} {m : Option EMap} {out : JVal}
    {m' : Option EMap} (hwf : wfSchema s = true)
    (h : makeSchemaStrict s m = some (out, m')) : cleanDeep out = true :=
  (strictGo_wf (jsize s + 1) s m out m' hwf h).1

/-- Witness for C3: the well-shaped schema
`{type:"object", properties:{a:{type:"string", minLength:1}}}` strictifies to
a tree containing no unsupported keyword. -/
theorem C3_unsupported_stripped_witness :
    wfSchema (JVal.obj [("type", JVal.str "object"),
      ("properties", JVal.obj [("a", JVal.obj [("type", JVal.str "string"),
        ("minLength", JVal.num 1)])])]) = true ∧
    makeSchemaStrict (JVal.obj [("type", JVal.str "object"),
      ("properties", JVal.obj [("a", JVal.obj [("type", JVal.str "string"),
        ("minLength", JVal.num 1)])])]) none =
      some (JVal.obj
        [("type", JVal.str "object"),
         ("properties", JVal.obj [("a", JVal.obj [("type", JVal.str "string")])]),
         ("additionalProperties", JVal.bool false),
         ("required", JVal.arr [JVal.str "a"])], none) ∧
    cleanDeep (JVal.obj
      [("type", JVal.str "object"),
       ("properties", JVal.obj [("a", JVal.obj [("type", JVal.str "string")])]),
       ("additionalProperties", JVal.bool false),
       ("required", JVal.arr [JVal.str "a"])]) = true := by
  have hwf : wfSchema (JVal.obj [("type", JVal.str "object"),
      ("properties", JVal.obj [("a", JVal.obj [("type", JVal.str "string"),
        ("minLength", JVal.num 1)])])]) = true := by
    simp [wfSchema, wfEntries, wfEntryVal, wfProps, wfPropList, wfUnion, wfList,
      scalarish, isScalar, nodupKeysJ, exclusiveShape, containsKey, typeIs,
      List.lookup]
  have heq : makeSchemaStrict (JVal.obj [("type", JVal.str "object"),
      ("properties", JVal.obj [("a", JVal.obj [("type", JVal.str "string"),
        ("minLength", JVal.num 1)])])]) none =
      some (JVal.obj
        [("type", JVal.str "object"),
         ("properties", JVal.obj [("a", JVal.obj [("type", JVal.str "string")])]),
         ("additionalProperties", JVal.bool false),
         ("required", JVal.arr [JVal.str "a"])], none) := rfl
  exact ⟨hwf, heq, C3_unsupported_stripped hwf heq⟩

/-- Counterexample to C3 as stated: strictifying
`{type:"object", items:{minLength:1}}` takes the object branch, never visits
the `items` subtree, and returns an output in which the unsupported keyword
`minLength` survives. -/
theorem C3_stripping_counterexample :
    makeSchemaStrict (JVal.obj [("type", JVal.str "object"),
        ("items", JVal.obj [("minLength", JVal.num 1)])]) none =
      some (JVal.obj
        [("type", JVal.str "object"),
         ("items", JVal.obj [("minLength", JVal.num 1)]),
         ("additionalProperties", JVal.bool false)], none) ∧
    cleanDeep (JVal.obj
        [("type", JVal.str "object"),
         ("items", JVal.obj [("minLength", JVal.num 1)]),
         ("additionalProperties", JVal.bool false)]) = false := by
  constructor
  · rfl
  · simp [cleanDeep, cleanEntries, cleanEntryVal, cleanProps, cleanList,
      unsupportedKeys]

theorem jsizeE_cons (k : String) (v : JVal) (es : List (String × JVal)) :
    jsizeE ((k, v) :: es) = jsize v + jsizeE es := rfl

theorem jsizeL_cons (x : JVal) (xs : List JVal) :
    jsizeL (x :: xs) = jsize x + jsizeL xs := rfl

theorem jsize_le_of_mem_entries {e : String × JVal} :
    ∀ {es : List (String × JVal)}, e ∈ es → jsize e.2 ≤ jsizeE es := by
  intro es
  induction es with
  | nil =>
    intro he
    cases he
  | cons a es ih =>
    obtain ⟨k, v⟩ := a
    intro he
    rw [jsizeE_cons]
    rcases List.mem_cons.mp he with rfl | he'
    · exact Nat.le_add_right _ _
    · exact Nat.le_trans (ih he') (Nat.le_add_left _ _)

theorem jsize_le_of_mem_list {x : JVal} :
    ∀ {xs : List JVal}, x ∈ xs → jsize x ≤ jsizeL xs := by
  intro xs
  induction xs with
  | nil =>
    intro hx
    cases hx
  | cons a xs ih =>
    intro hx
    rw [jsizeL_cons]
    rcases List.mem_cons.mp hx with rfl | hx'
    · exact Nat.le_add_right _ _
    · exact Nat.le_trans (ih hx') (Nat.le_add_left _ _)

theorem snd_mem_of_mem_enumFrom {α : Type} {p : Nat × α} :
    ∀ (xs : List α) (n : Nat), p ∈ List.enumFrom n xs → p.2 ∈ xs := by
  intro xs
  induction xs with
  | nil =>
    intro n h
    cases h
  | cons x xs ih =>
    intro n h
    rw [List.enumFrom] at h
    rcases List.mem_cons.mp h with rfl | h'
    · exact List.mem_cons_self _ _
    · exact List.mem_cons_of_mem _ (ih (n + 1) h')

theorem jsize_propPairs {props : JVal} {e : String × JVal}
    (he : e ∈ propPairs props) : jsize e.2 ≤ jsize props := by
  cases props with
  | obj ps =>
    exact Nat.le_trans (jsize_le_of_mem_entries he) (Nat.le_add_left _ _)
  | arr xs =>
    obtain ⟨p, hp, rfl⟩ := List.mem_map.mp he
    have hx : p.2 ∈ xs := snd_mem_of_mem_enumFrom xs 0 hp
    exact Nat.le_trans (jsize_le_of_mem_list hx) (Nat.le_add_left _ _)
  | str s =>
    obtain ⟨p, hp, rfl⟩ := List.mem_map.mp he
    exact Nat.le_refl 1
  | num n => simp [propPairs] at he
  | bool b => simp [propPairs] at he
  | null => simp [propPairs] at he

theorem unionsOkEntries_forall (es : List (String × JVal)) :
    unionsOkEntries es = true ↔ ∀ e ∈ es, unionsOkEntry e.1 e.2 = true := by
  induction es with
  | nil => simp [unionsOkEntries]
  | cons e es ih =>
    obtain ⟨k, v⟩ := e
    simp [unionsOkEntries, Bool.and_eq_true, ih]

theorem unionsOkList_forall (xs : List JVal) :
    unionsOkList xs = true ↔ ∀ x ∈ xs, unionsOk x = true := by
  induction xs with
  | nil => simp [unionsOkList]
  | cons x xs ih =>
    simp [unionsOkList, Bool.and_eq_true, ih]

theorem unionsOkPropList_forall (ps : List (String × JVal)) :
    unionsOkPropList ps = true ↔ ∀ e ∈ ps, unionsOk e.2 = true := by
  induction ps with
  | nil => simp [unionsOkPropList]
  | cons e ps ih =>
    obtain ⟨k, v⟩ := e
    simp [unionsOkPropList, Bool.and_eq_true, ih]

theorem unionsOkEntry_properties : unionsOkEntry "properties" = unionsOkProps := by
  funext v
  have h1 : (("properties" : String) == "properties") = true := by decide
  simp only [unionsOkEntry, h1, if_true]

theorem unionsOkEntry_items : unionsOkEntry "items" = unionsOk := by
  funext v
  have h1 : (("items" : String) == "properties") = false := by decide
  have h2 : (("items" : String) == "items") = true := by decide
  simp only [unionsOkEntry, h1, h2, Bool.false_eq_true, if_false, if_true]

theorem unionsOkEntry_anyOf : unionsOkEntry "anyOf" = unionsOkUnion := by
  funext v
  have h1 : (("anyOf" : String) == "properties") = false := by decide
  have h2 : (("anyOf" : String) == "items") = false := by decide
  have h3 : (("anyOf" : String) == "anyOf" || ("anyOf" : String) == "allOf"
      || ("anyOf" : String) == "oneOf") = true := by decide
  simp only [unionsOkEntry, h1, h2, h3, Bool.false_eq_true, if_false, if_true]

theorem unionsOkEntry_allOf : unionsOkEntry "allOf" = unionsOkUnion := by
  funext v
  have h1 : (("allOf" : String) == "properties") = false := by decide
  have h2 : (("allOf" : String) == "items") = false := by decide
  have h3 : (("allOf" : String) == "anyOf" || ("allOf" : String) == "allOf"
      || ("allOf" : String) == "oneOf") = true := by decide
  simp only [unionsOkEntry, h1, h2, h3, Bool.false_eq_true, if_false, if_true]

theorem unionsOkEntry_oneOf : unionsOkEntry "oneOf" = unionsOkUnion := by
  funext v
  have h1 : (("oneOf" : String) == "properties") = false := by decide
  have h2 : (("oneOf" : String) == "items") = false := by decide
  have h3 : (("oneOf" : String) == "anyOf" || ("oneOf" : String) == "allOf"
      || ("oneOf" : String) == "oneOf") = true := by decide
  simp only [unionsOkEntry, h1, h2, h3, Bool.false_eq_true, if_false, if_true]

theorem unionsOkProps_obj (ps : List (String × JVal)) :
    unionsOkProps (.obj ps) = unionsOkPropList ps := by
  simp [unionsOkProps]

theorem unionsOkProps_arr (xs : List JVal) :
    unionsOkProps (.arr xs) = unionsOkList xs := by
  simp [unionsOkProps]

theorem unionsOk_scalar {v : JVal} (h : isScalar v = true) :
    unionsOk v = true := by
  cases v <;> simp_all [unionsOk, isScalar]

theorem unionsOkUnion_parts {v : JVal} (h : unionsOkUnion v = true)
    (ht : truthy v = true) : ∃ xs, v = JVal.arr xs ∧ unionsOkList xs = true := by
  cases v with
  | arr xs =>
    refine ⟨xs, rfl, ?_⟩
    simpa [unionsOkUnion] using h
  | str s => simp_all [unionsOkUnion, truthy]
  | num n => simp_all [unionsOkUnion, truthy]
  | bool b => simp_all [unionsOkUnion, truthy]
  | null => simp_all [unionsOkUnion, truthy]
  | obj es => simp_all [unionsOkUnion, truthy]

theorem strictListC_total {go : JVal → Option EMap → Option (JVal × Option EMap)} :
    ∀ xs : List JVal, (∀ x ∈ xs, ∀ mv, ∃ r, go x mv = some r) →
      ∀ m1, ∃ r, strictListC go xs m1 = some r := by
  intro xs
  induction xs with
  | nil =>
    intro _ m1
    exact ⟨([], m1), rfl⟩
  | cons x xs ih =>
    intro hall m1
    obtain ⟨⟨x', m2⟩, hx⟩ := hall x (List.mem_cons_self _ _) m1
    obtain ⟨⟨xs', m3⟩, hxs⟩ :=
      ih (fun y hy mv => hall y (List.mem_cons_of_mem _ hy) mv) m2
    exact ⟨(x' :: xs', m3), by simp [strictListC, hx, hxs]⟩

theorem strictPropsC_total {go : JVal → Option EMap → Option (JVal × Option EMap)} :
    ∀ ps : List (String × JVal), (∀ e ∈ ps, ∀ mv, ∃ r, go e.2 mv = some r) →
      ∀ m1, ∃ r, strictPropsC go ps m1 = some r := by
  intro ps
  induction ps with
  | nil =>
    intro _ m1
    exact ⟨([], m1), rfl⟩
  | cons p ps ih =>
    obtain ⟨k, v⟩ := p
    intro hall m1
    obtain ⟨⟨v', m2⟩, hv⟩ := hall (k, v) (List.mem_cons_self _ _) m1
    obtain ⟨⟨ps', m3⟩, hps⟩ :=
      ih (fun e he mv => hall e (List.mem_cons_of_mem _ he) mv) m2
    exact ⟨((k, v') :: ps', m3), by simp [strictPropsC, hv, hps]⟩

theorem unionStep_go_total {fuel : Nat} {es n3 : List (String × JVal)}
    {m1 : Option EMap} {k : String}
    (ih : ∀ s mv, unionsOk s = true → jsize s < fuel →
      ∃ r, strictGo fuel s mv = some r)
    (hent : ∀ e ∈ es, unionsOkEntry e.1 e.2 = true)
    (hku : unionsOkEntry k = unionsOkUnion)
    (hfuel : jsize (JVal.obj es) ≤ fuel)
    (hat : truthy (getKey es k) = true) :
    ∃ r, unionStep (fun v mm => strictGo fuel v mm) es n3 m1 k = some r := by
  cases hl : List.lookup k es with
  | none =>
    rw [getKey, hl] at hat
    simp [truthy] at hat
  | some v =>
    have htv : truthy v = true := by
      rw [getKey, hl] at hat
      exact hat
    have h2 : unionsOkUnion v = true := by
      have h3 : unionsOkEntry k v = true := hent (k, v) (lookup_mem hl)
      rw [hku] at h3
      exact h3
    obtain ⟨xs, rfl, hxs⟩ := unionsOkUnion_parts h2 htv
    have hsize : jsize (JVal.arr xs) ≤ jsizeE es :=
      jsize_le_of_mem_entries (lookup_mem hl)
    have h5 : jsize (JVal.arr xs) = 1 + jsizeL xs := rfl
    have h6 : jsize (JVal.obj es) = 1 + jsizeE es := rfl
    unfold unionStep
    rw [hl]
    have htot : ∀ x ∈ xs, ∀ mv, ∃ r,
        (fun v mm => strictGo fuel v mm) x mv = some r := by
      intro x hx mv
      have h4 : jsize x ≤ jsizeL xs := jsize_le_of_mem_list hx
      exact ih x mv ((unionsOkList_forall xs).mp hxs x hx) (by omega)
    obtain ⟨⟨xs', m2⟩, hsl⟩ := strictListC_total xs htot m1
    show ∃ r, (match strictListC (fun v mm => strictGo fuel v mm) xs m1 with
      | some (xs2, m3) => some (JVal.obj (setKey n3 k (.arr xs2)), m3)
      | none => none) = some r
    rw [hsl]
    exact ⟨_, rfl⟩

theorem strictGo_total : ∀ fuel s m, unionsOk s = true → jsize s < fuel →
    ∃ r, strictGo fuel s m = some r := by
  intro fuel
  induction fuel with
  | zero =>
    intro s m hu hs
    exact absurd hs (Nat.not_lt_zero _)
  | succ fuel ih =>
    intro s m hu hs
    cases s with
    | str s0 => exact ⟨(.str s0, m), rfl⟩
    | num n => exact ⟨(.num n, m), rfl⟩
    | bool b => exact ⟨(.bool b, m), rfl⟩
    | null => exact ⟨(.null, m), rfl⟩
    | arr xs => simp [unionsOk] at hu
    | obj es =>
      have hfuel : jsize (JVal.obj es) ≤ fuel := Nat.lt_succ_iff.mp hs
      have hE : jsize (JVal.obj es) = 1 + jsizeE es := rfl
      simp only [unionsOk] at hu
      have hent := (unionsOkEntries_forall es).mp hu
      rw [strictGo_succ_obj, spreadEntries_obj]
      unfold branchStep
      split
      · split
        · rename_i props heq
          split
          · have hpv : unionsOkProps props = true := by
              have h2 : unionsOkEntry "properties" props = true :=
                hent ("properties", props) (lookup_mem heq)
              rw [unionsOkEntry_properties] at h2
              exact h2
            have hsp : jsize props ≤ jsizeE es :=
              jsize_le_of_mem_entries (lookup_mem heq)
            have htot : ∀ e ∈ propPairs props, ∀ mv, ∃ r,
                (fun v mm => strictGo fuel v mm) e.2 mv = some r := by
              intro e he mv
              have h3 : jsize e.2 ≤ jsize props := jsize_propPairs he
              have hsz : jsize e.2 < fuel := by omega
              have hoke : unionsOk e.2 = true := by
                cases props with
                | obj ps =>
                  have h4 : unionsOkPropList ps = true := by
                    rw [unionsOkProps_obj] at hpv
                    exact hpv
                  exact (unionsOkPropList_forall ps).mp h4 e he
                | arr xs =>
                  obtain ⟨p, hp, rfl⟩ := List.mem_map.mp he
                  have hx : p.2 ∈ xs := snd_mem_of_mem_enumFrom xs 0 hp
                  have h4 : unionsOkList xs = true := by
                    rw [unionsOkProps_arr] at hpv
                    exact hpv
                  exact (unionsOkList_forall xs).mp h4 p.2 hx
                | str s0 =>
                  obtain ⟨p, hp, rfl⟩ := List.mem_map.mp he
                  exact unionsOk_scalar rfl
                | num n => simp [propPairs] at he
                | bool b => simp [propPairs] at he
                | null => simp [propPairs] at he
              exact ih e.2 mv hoke hsz
            obtain ⟨⟨np, m2⟩, hnp⟩ :=
              strictPropsC_total (propPairs props) htot (prepNode es m).2
            rw [hnp]
            exact ⟨_, rfl⟩
          · exact ⟨_, rfl⟩
        · exact ⟨_, rfl⟩
      · split
        · split
          · rename_i items heq
            split
            · have hoki : unionsOk items = true := by
                have h2 : unionsOkEntry "items" items = true :=
                  hent ("items", items) (lookup_mem heq)
                rw [unionsOkEntry_items] at h2
                exact h2
              have hsz : jsize items < fuel := by
                have h3 : jsize items ≤ jsizeE es :=
                  jsize_le_of_mem_entries (lookup_mem heq)
                omega
              obtain ⟨⟨it2, m2⟩, hit⟩ := ih items (prepNode es m).2 hoki hsz
              rw [show (fun v mm => strictGo fuel v mm) items (prepNode es m).2 =
                strictGo fuel items (prepNode es m).2 from rfl, hit]
              exact ⟨_, rfl⟩
            · exact ⟨_, rfl⟩
          · exact ⟨_, rfl⟩
        · split
          · rename_i hat
            exact unionStep_go_total ih hent unionsOkEntry_anyOf hfuel hat
          · split
            · rename_i hat
              exact unionStep_go_total ih hent unionsOkEntry_allOf hfuel hat
            · split
              · rename_i hat
                exact unionStep_go_total ih hent unionsOkEntry_oneOf hfuel hat
              · exact ⟨_, rfl⟩

/-- C8 (corrected): the Strictifier is not total — a truthy non-array
`anyOf`/`allOf`/`oneOf` value at a reached node makes the JavaScript `.map`
call throw a `TypeError` (see the counterexample).  It does return a result
for every input tree of objects and scalars in which, at every node, each
`anyOf`/`allOf`/`oneOf` value is absent, falsy or an array of such trees;
scalar inputs are returned unchanged without recursion, and an object none of
whose keys is recognized is returned as an unmodified shallow copy with its
unrecognized keywords left in place. -/
theorem C8_total_passthrough {s : JVal} {m : Option EMap}
    (h : unionsOk s = true) :
    ∃ r, makeSchemaStrict s m = some r
      ∧ (isScalar s = true → r = (s, m))
      ∧ (∀ es : List (String × JVal), s = .obj es →
          (∀ e ∈ es, e.1 ∉ recognizedKeys) → r = (.obj es, m)) := by
  obtain ⟨r, hr⟩ := strictGo_total (jsize s + 1) s m h (Nat.lt_succ_self _)
  refine ⟨r, hr, ?_, ?_⟩
  · intro hsc
    cases s with
    | str s0 =>
      have h2 : (some ((JVal.str s0 : JVal), m) : Option (JVal × Option EMap)) =
          some r := hr
      exact (Option.some.inj h2).symm
    | num n =>
      have h2 : (some ((JVal.num n : JVal), m) : Option (JVal × Option EMap)) =
          some r := hr
      exact (Option.some.inj h2).symm
    | bool b =>
      have h2 : (some ((JVal.bool b : JVal), m) : Option (JVal × Option EMap)) =
          some r := hr
      exact (Option.some.inj h2).symm
    | null =>
      have h2 : (some ((JVal.null : JVal), m) : Option (JVal × Option EMap)) =
          some r := hr
      exact (Option.some.inj h2).symm
    | arr xs => simp [isScalar] at hsc
    | obj es => simp [isScalar] at hsc
  · rintro es rfl hun
    have h3 : strictGo (jsize (JVal.obj es) + 1) (JVal.obj es) m =
        some (JVal.obj es, m) := unrecognized_passthrough.2.2.2.2 es m hun
    rw [h3] at hr
    exact (Option.some.inj hr).symm

/-- Witness for C8 on a concrete schema combining an object `properties` map,
an array-valued `anyOf`, and unrecognized keywords. -/
theorem C8_total_passthrough_witness :
    unionsOk (JVal.obj [("type", JVal.str "object"),
      ("properties", JVal.obj [("a", JVal.obj
        [("anyOf", JVal.arr [JVal.obj [("type", JVal.str "string")], JVal.num 1]),
         ("description", JVal.str "d")])]),
      ("foo", JVal.num 7)]) = true ∧
    ∃ r, makeSchemaStrict (JVal.obj [("type", JVal.str "object"),
        ("properties", JVal.obj [("a", JVal.obj
          [("anyOf", JVal.arr [JVal.obj [("type", JVal.str "string")], JVal.num 1]),
           ("description", JVal.str "d")])]),
        ("foo", JVal.num 7)]) none = some r
      ∧ (isScalar (JVal.obj [("type", JVal.str "object"),
          ("properties", JVal.obj [("a", JVal.obj
            [("anyOf", JVal.arr [JVal.obj [("type", JVal.str "string")], JVal.num 1]),
             ("description", JVal.str "d")])]),
          ("foo", JVal.num 7)]) = true →
          r = (JVal.obj [("type", JVal.str "object"),
            ("properties", JVal.obj [("a", JVal.obj
              [("anyOf", JVal.arr [JVal.obj [("type", JVal.str "string")], JVal.num 1]),
               ("description", JVal.str "d")])]),
            ("foo", JVal.num 7)], none))
      ∧ (∀ es : List (String × JVal), JVal.obj [("type", JVal.str "object"),
          ("properties", JVal.obj [("a", JVal.obj
            [("anyOf", JVal.arr [JVal.obj [("type", JVal.str "string")], JVal.num 1]),
             ("description", JVal.str "d")])]),
          ("foo", JVal.num 7)] = .obj es →
          (∀ e ∈ es, e.1 ∉ recognizedKeys) → r = (.obj es, none)) := by
  have hu : unionsOk (JVal.obj [("type", JVal.str "object"),
      ("properties", JVal.obj [("a", JVal.obj
        [("anyOf", JVal.arr [JVal.obj [("type", JVal.str "string")], JVal.num 1]),
         ("description", JVal.str "d")])]),
      ("foo", JVal.num 7)]) = true := by
    simp [unionsOk, unionsOkEntries, unionsOkEntry, unionsOkProps,
      unionsOkPropList, unionsOkUnion, unionsOkList, truthy]
  exact ⟨hu, C8_total_passthrough hu⟩
